import Mathlib

set_option maxHeartbeats 1000000

/-! Shallow embedding of the `bx` bencode decoder (src/err.rs, src/parse.rs,
src/de.rs, src/impls.rs, src/lib.rs).  Bytes are natural numbers (u8 values),
buffers are `List Nat`, and the decoder's mutable cursor `self.pos` is threaded
explicitly: every operation returns the outcome together with the cursor
position after the call. -/

/-- Bytes of the input buffer, modelled as natural numbers (u8 values 0..255). -/
abbrev Byte := Nat

/-- Error type of the decoder, translated from `enum Error` in src/err.rs
(`Eof`, `Type`, `Length`, `Parse`, `Unexpected`, `Overflow`). -/
inductive Error where
  | eof : Error
  | typeMismatch (reason : String) : Error
  | length (expected : Nat) (actual : Nat) : Error
  | parse (reason : String) (pos : Nat) : Error
  | unexpected (pos : Nat) : Error
  | overflow (pos : Nat) : Error
deriving DecidableEq, Repr

/-- Decidable equality for `Except`, used to evaluate concrete decode results. -/
instance {e a : Type} [DecidableEq e] [DecidableEq a] : DecidableEq (Except e a)
  | .ok x, .ok y =>
    if h : x = y then .isTrue (by rw [h]) else .isFalse (fun hc => h (Except.ok.inj hc))
  | .error x, .error y =>
    if h : x = y then .isTrue (by rw [h]) else .isFalse (fun hc => h (Except.error.inj hc))
  | .ok _, .error _ => .isFalse (fun hc => Except.noConfusion hc)
  | .error _, .ok _ => .isFalse (fun hc => Except.noConfusion hc)

/-- Result of one decoder operation together with the cursor position after the
call (in Rust the position lives in `self.pos` and is mutated in place). -/
abbrev DRes (α : Type) := Except Error α × Nat

/-- Shape of an embedded decode operation: buffer and current position in,
outcome and new position out. -/
abbrev DecFn (α : Type) := List Byte → Nat → DRes α

/-- usize::MAX for the 64-bit targets the crate is built for. -/
def USIZE_MAX : Nat := 2 ^ 64 - 1

/-- i64::MAX. -/
def I64_MAX : Int := 2 ^ 63 - 1

/-- i64::MIN. -/
def I64_MIN : Int := -(2 ^ 63)

/-- usize::checked_mul. -/
def checked_mulU (a b : Nat) : Option Nat :=
  if a * b ≤ USIZE_MAX then some (a * b) else none

/-- usize::checked_add. -/
def checked_addU (a b : Nat) : Option Nat :=
  if a + b ≤ USIZE_MAX then some (a + b) else none

/-- i64::checked_mul. -/
def checked_mulI (a b : Int) : Option Int :=
  if I64_MIN ≤ a * b ∧ a * b ≤ I64_MAX then some (a * b) else none

/-- i64::checked_add. -/
def checked_addI (a b : Int) : Option Int :=
  if I64_MIN ≤ a + b ∧ a + b ≤ I64_MAX then some (a + b) else none

/-- `BenDecoder::peek_char` (src/parse.rs): read the byte at the cursor without
moving it; end of input gives `Error::Eof`. -/
def peek_char (buf : List Byte) (pos : Nat) : Except Error Byte :=
  match buf.get? pos with
  | some c => .ok c
  | none => .error .eof

/-- `BenDecoder::next_char` (src/parse.rs): peek, then advance the cursor. -/
def next_char (buf : List Byte) (pos : Nat) : DRes Byte :=
  match peek_char buf pos with
  | .ok c => (.ok c, pos + 1)
  | .error e => (.error e, pos)

/-- Digit-accumulation loop of `BenDecoder::parse_usize` (src/parse.rs).  The
fuel argument is only a termination device: the loop consumes one byte per
iteration, so any fuel larger than the remaining buffer length is enough and
the `0` case is never reached from the wrappers below. -/
def parse_usize_go (buf : List Byte) (stop_char : Byte) : Nat → Nat → Nat → DRes Nat
  | 0, _, pos => (.error .eof, pos)
  | fuel + 1, val, pos =>
    match buf.get? pos with
    | none => (.error .eof, pos)
    | some c =>
      if 48 ≤ c ∧ c ≤ 57 then
        match (checked_mulU val 10).bind (fun n => checked_addU n (c - 48)) with
        | some n => parse_usize_go buf stop_char fuel n (pos + 1)
        | none => (.error (.overflow (pos + 1)), pos + 1)
      else if c = stop_char then (.ok val, pos + 1)
      else (.error (.unexpected (pos + 1)), pos + 1)

/-- `BenDecoder::parse_usize` (src/parse.rs): an initial non-consuming digit
check, then the checked digit-accumulation loop up to `stop_char`. -/
def parse_usize (buf : List Byte) (stop_char : Byte) (pos : Nat) : DRes Nat :=
  match peek_char buf pos with
  | .error e => (.error e, pos)
  | .ok c =>
    if 48 ≤ c ∧ c ≤ 57 then parse_usize_go buf stop_char (buf.length + 1) 0 pos
    else (.error (.unexpected pos), pos)

/-- Digit-accumulation loop of `BenDecoder::parse_i64` (src/parse.rs); the
magnitude is accumulated as a non-negative checked i64 and negated at the stop
character when a leading `-` was seen. -/
def parse_i64_go (buf : List Byte) (stop_char : Byte) (negative : Bool) :
    Nat → Int → Nat → DRes Int
  | 0, _, pos => (.error .eof, pos)
  | fuel + 1, val, pos =>
    match buf.get? pos with
    | none => (.error .eof, pos)
    | some c =>
      if 48 ≤ c ∧ c ≤ 57 then
        match (checked_mulI val 10).bind (fun n => checked_addI n ((c - 48 : Nat) : Int)) with
        | some n => parse_i64_go buf stop_char negative fuel n (pos + 1)
        | none => (.error (.overflow (pos + 1)), pos + 1)
      else if c = stop_char then (.ok (if negative then val * (-1) else val), pos + 1)
      else (.error (.unexpected (pos + 1)), pos + 1)

/-- Digit phase of `BenDecoder::parse_i64`: non-consuming digit check, then the
accumulation loop. -/
def parse_i64_digits (buf : List Byte) (stop_char : Byte) (negative : Bool) (pos : Nat) :
    DRes Int :=
  match peek_char buf pos with
  | .error e => (.error e, pos)
  | .ok c =>
    if 48 ≤ c ∧ c ≤ 57 then parse_i64_go buf stop_char negative (buf.length + 1) 0 pos
    else (.error (.unexpected pos), pos)

/-- `BenDecoder::parse_i64` (src/parse.rs): optional leading `-` (consumed via
a peek and a cursor bump), then the digit phase. -/
def parse_i64 (buf : List Byte) (stop_char : Byte) (pos : Nat) : DRes Int :=
  match peek_char buf pos with
  | .error e => (.error e, pos)
  | .ok c0 =>
    if c0 = 45 then parse_i64_digits buf stop_char true (pos + 1)
    else parse_i64_digits buf stop_char false pos

/-- `Decoder::decode_int` for `BenDecoder` (src/parse.rs): consume the tag byte
via `next_char`, require it to be `i` (105), then `parse_i64` up to `e` (101). -/
def decode_int (buf : List Byte) (pos : Nat) : DRes Int :=
  match next_char buf pos with
  | (.error e, p) => (.error e, p)
  | (.ok c, p) =>
    if c ≠ 105 then (.error (.parse "Expected integer" p), p)
    else parse_i64 buf 101 p

/-- `Decoder::decode_bytes` for `BenDecoder` (src/parse.rs): peek a digit
(non-consuming tag check), parse the length up to `:` (58), then slice
`buf[pos..pos + len]`, advancing the cursor past the payload only on success. -/
def decode_bytes (buf : List Byte) (pos : Nat) : DRes (List Byte) :=
  match peek_char buf pos with
  | .error e => (.error e, pos)
  | .ok c =>
    if 48 ≤ c ∧ c ≤ 57 then
      match parse_usize buf 58 pos with
      | (.ok len, p) =>
        if p + len ≤ buf.length then (.ok ((buf.drop p).take len), p + len)
        else (.error .eof, p)
      | (.error e, p) => (.error e, p)
    else (.error (.parse "Expected byte string" pos), pos)

/-- `Decoder::decode_bytes` of src/parse.rs under debug-build semantics, where
the unchecked usize addition `self.pos + len` in `buf.get(self.pos..self.pos +
len)` aborts (panics) on overflow; `none` marks that abort, `some` the normal
outcomes. -/
def decode_bytes_dbg (buf : List Byte) (pos : Nat) : Option (DRes (List Byte)) :=
  match peek_char buf pos with
  | .error e => some (.error e, pos)
  | .ok c =>
    if 48 ≤ c ∧ c ≤ 57 then
      match parse_usize buf 58 pos with
      | (.ok len, p) =>
        if p + len ≤ USIZE_MAX then
          some (if p + len ≤ buf.length then (.ok ((buf.drop p).take len), p + len)
                else (.error .eof, p))
        else none
      | (.error e, p) => some (.error e, p)
    else some (.error (.parse "Expected byte string" pos), pos)

/-- The `Visitor` trait (src/de.rs): four overridable operations, each
defaulting to a type-mismatch error with a shape-specific reason.  The list and
dict visitors receive the accessor, i.e. the decoder state (buffer, position). -/
structure Visitor (α : Type) where
  visit_dict : DecFn α := fun _ pos => (.error (.typeMismatch "Dict not expected"), pos)
  visit_list : DecFn α := fun _ pos => (.error (.typeMismatch "List not expected"), pos)
  visit_bytes : List Byte → Except Error α := fun _ => .error (.typeMismatch "Byte string not expected")
  visit_int : Int → Except Error α := fun _ => .error (.typeMismatch "Integer not expected")

/-- `Decoder::decode_list` for `BenDecoder` (src/parse.rs): consume the tag via
`next_char`, require `l` (108), run the visitor's `visit_list`, then consume
the terminator, requiring `e` (101). -/
def decode_list (v : Visitor α) (buf : List Byte) (pos : Nat) : DRes α :=
  match next_char buf pos with
  | (.error e, p) => (.error e, p)
  | (.ok c, p) =>
    if c ≠ 108 then (.error (.parse "Expected List" p), p)
    else
      match v.visit_list buf p with
      | (.ok out, p2) =>
        match next_char buf p2 with
        | (.error e, p3) => (.error e, p3)
        | (.ok c2, p3) => if c2 = 101 then (.ok out, p3) else (.error (.unexpected p3), p3)
      | (.error e, p2) => (.error e, p2)

/-- `Decoder::decode_dict` for `BenDecoder` (src/parse.rs): same framing as
`decode_list` with tag `d` (100) and the visitor's `visit_dict`. -/
def decode_dict (v : Visitor α) (buf : List Byte) (pos : Nat) : DRes α :=
  match next_char buf pos with
  | (.error e, p) => (.error e, p)
  | (.ok c, p) =>
    if c ≠ 100 then (.error (.parse "Expected Dict" p), p)
    else
      match v.visit_dict buf p with
      | (.ok out, p2) =>
        match next_char buf p2 with
        | (.error e, p3) => (.error e, p3)
        | (.ok c2, p3) => if c2 = 101 then (.ok out, p3) else (.error (.unexpected p3), p3)
      | (.error e, p2) => (.error e, p2)

/-- `List::next_element` for `BenDecoder` (src/parse.rs): peek for the
terminator `e` (non-consuming); otherwise a full recursive decode of the next
element through the element type's `Decode` implementation `dec`. -/
def next_element (dec : DecFn α) (buf : List Byte) (pos : Nat) : DRes (Option α) :=
  match peek_char buf pos with
  | .error e => (.error e, pos)
  | .ok c =>
    if c = 101 then (.ok none, pos)
    else
      match dec buf pos with
      | (.ok v, p) => (.ok (some v), p)
      | (.error e, p) => (.error e, p)

/-- `Dict::next_entry` for `BenDecoder` (src/parse.rs): peek for the terminator
`e`; otherwise decode the key as a raw byte string and the value through the
value type's `Decode` implementation `dec`. -/
def next_entry (dec : DecFn α) (buf : List Byte) (pos : Nat) :
    DRes (Option (List Byte × α)) :=
  match peek_char buf pos with
  | .error e => (.error e, pos)
  | .ok c =>
    if c = 101 then (.ok none, pos)
    else
      match decode_bytes buf pos with
      | (.ok key, p) =>
        match dec buf p with
        | (.ok v, p2) => (.ok (some (key, v)), p2)
        | (.error e, p2) => (.error e, p2)
      | (.error e, p) => (.error e, p)

/-- `pub fn parse` (src/lib.rs): construct a fresh decoder over the buffer at
position 0 and run the target type's `Decode` implementation, returning only
the decoded result. -/
def parse (dec : DecFn α) (buf : List Byte) : Except Error α :=
  (dec buf 0).1

/-! Built-in adapters (src/impls.rs / src/lib.rs). -/

/-- Element loop of the `Vec<T>` visitor (`list_impl!`): pull elements until
`next_element` reports end-of-list, pushing each.  Fuel as in the parse loops. -/
def vec_go (dec : DecFn α) (buf : List Byte) : Nat → List α → Nat → DRes (List α)
  | 0, _, pos => (.error .eof, pos)
  | fuel + 1, acc, pos =>
    match next_element dec buf pos with
    | (.ok none, p) => (.ok acc, p)
    | (.ok (some t), p) => vec_go dec buf fuel (acc ++ [t]) p
    | (.error e, p) => (.error e, p)

/-- `Decode` for `Vec<T>` (`list_impl!(Vec, push, ...)`): decode via the list
primitive with a visitor that only overrides `visit_list`. -/
def decode_vec (dec : DecFn α) : DecFn (List α) :=
  decode_list { visit_list := fun buf pos => vec_go dec buf (buf.length + 1) [] pos }

/-- Element pulls of the `[T; N]` visitor (`array_impl!`), unrolled in the Rust
macro: `r` elements remain to pull and `i` have been pulled so far; a `None`
from `next_element` yields `Error::Length { expected: N, actual: i }`. -/
def array_go (dec : DecFn α) (n : Nat) (buf : List Byte) : Nat → Nat → Nat → DRes (List α)
  | 0, _, pos => (.ok [], pos)
  | r + 1, i, pos =>
    match next_element dec buf pos with
    | (.ok (some t), p) =>
      match array_go dec n buf r (i + 1) p with
      | (.ok ts, p2) => (.ok (t :: ts), p2)
      | (.error e, p2) => (.error e, p2)
    | (.ok none, p) => (.error (.length n i), p)
    | (.error e, p) => (.error e, p)

/-- `Decode` for `[T; N]` (`array_impl!`): decode via the list primitive with a
visitor pulling exactly `n` elements. -/
def decode_array (dec : DecFn α) (n : Nat) : DecFn (List α) :=
  decode_list { visit_list := fun buf pos => array_go dec n buf n 0 pos }

/-- Element pulls of the homogeneous tuple visitor (`tuple_impl!`), unrolled in
the Rust macro: a `None` from `next_element` yields `Error::Eof`. -/
def tuple_go (dec : DecFn α) (buf : List Byte) : Nat → Nat → DRes (List α)
  | 0, pos => (.ok [], pos)
  | r + 1, pos =>
    match next_element dec buf pos with
    | (.ok (some t), p) =>
      match tuple_go dec buf r p with
      | (.ok ts, p2) => (.ok (t :: ts), p2)
      | (.error e, p2) => (.error e, p2)
    | (.ok none, p) => (.error .eof, p)
    | (.error e, p) => (.error e, p)

/-- `Decode` for an `n`-tuple with all components of one type (`tuple_impl!`):
decode via the list primitive with a visitor pulling exactly `n` elements. -/
def decode_tuple (dec : DecFn α) (n : Nat) : DecFn (List α) :=
  decode_list { visit_list := fun buf pos => tuple_go dec buf n pos }

/-- `Decode` for the pair `(A, B)` — the arity-2 instance of `tuple_impl!`,
kept heterogeneous exactly as the macro expands it. -/
def decode_pair (decA : DecFn α) (decB : DecFn β) : DecFn (α × β) :=
  decode_list
    { visit_list := fun buf pos =>
        match next_element decA buf pos with
        | (.ok (some a), p) =>
          match next_element decB buf p with
          | (.ok (some b), p2) => (.ok (a, b), p2)
          | (.ok none, p2) => (.error .eof, p2)
          | (.error e, p2) => (.error e, p2)
        | (.ok none, p) => (.error .eof, p)
        | (.error e, p) => (.error e, p) }

/-- Strict lexicographic order on byte-string keys, the `Ord` used by
`BTreeMap<&[u8], T>`. -/
def byteLt : List Byte → List Byte → Bool
  | [], [] => false
  | [], _ :: _ => true
  | _ :: _, [] => false
  | a :: as', b :: bs' => if a < b then true else if b < a then false else byteLt as' bs'

/-- `BTreeMap::insert` on the sorted association-list model: keeps keys sorted
and overwrites the value on an equal key (last write wins). -/
def mapInsert (m : List (List Byte × α)) (k : List Byte) (v : α) : List (List Byte × α) :=
  match m with
  | [] => [(k, v)]
  | (k0, v0) :: rest =>
    if byteLt k k0 then (k, v) :: (k0, v0) :: rest
    else if byteLt k0 k then (k0, v0) :: mapInsert rest k v
    else (k, v) :: rest

/-- Entry loop of the map visitor's `visit_dict` (`map_impl!`): pull entries
until end-of-dict, inserting each key/value pair. -/
def dict_map_go (dec : DecFn α) (buf : List Byte) :
    Nat → List (List Byte × α) → Nat → DRes (List (List Byte × α))
  | 0, _, pos => (.error .eof, pos)
  | fuel + 1, acc, pos =>
    match next_entry dec buf pos with
    | (.ok none, p) => (.ok acc, p)
    | (.ok (some (k, v)), p) => dict_map_go dec buf fuel (mapInsert acc k v) p
    | (.error e, p) => (.error e, p)

/-- The visitor built by `map_impl!` for `BTreeMap<&[u8], T>`: it overrides
only `visit_dict`; `visit_list` stays the trait default. -/
def map_visitor (dec : DecFn α) : Visitor (List (List Byte × α)) :=
  { visit_dict := fun buf pos => dict_map_go dec buf (buf.length + 1) [] pos }

/-- `Decode` for `BTreeMap<&[u8], T>` as written in `map_impl!`
(src/impls.rs:235, src/lib.rs:508): the expansion calls `decoder.decode_list`,
not `decode_dict`, with the dict-only visitor. -/
def decode_btreemap (dec : DecFn α) : DecFn (List (List Byte × α)) :=
  decode_list (map_visitor dec)

/-! Helper layer: list-indexing facts, digit folds, decimal rendering. -/

/-- Reading an appended list at the length of its left part. -/
theorem get?_len_append (pre : List Byte) (x : Byte) (post : List Byte) :
    (pre ++ x :: post).get? pre.length = some x := by
  induction pre with
  | nil => rfl
  | cons a l ih => simpa using ih

/-- Reading a truncated list below the cut returns the original byte. -/
theorem get?_take_lt (l : List Byte) {i k : Nat} (h : i < k) :
    (l.take k).get? i = l.get? i :=
  List.get?_take h

/-- Reading a truncated list at or past the cut gives nothing. -/
theorem get?_take_ge (l : List Byte) {i k : Nat} (h : k ≤ i) :
    (l.take k).get? i = none := by
  refine List.get?_eq_none.2 ?_
  calc (l.take k).length = min k l.length := l.length_take k
    _ ≤ k := min_le_left _ _
    _ ≤ i := h

/-- Variant of the previous fact stated for the bracket indexing notation. -/
theorem getElem?_take_ge (l : List Byte) {i k : Nat} (h : k ≤ i) :
    (l.take k)[i]? = none := by
  have hx := get?_take_ge l h
  simpa [List.get?_eq_getElem?] using hx

/-- Value of a run of decimal digits, most significant first, accumulated on
top of `a` the way the parse loops do (signed accumulator). -/
def digitFoldI (a : Int) (ds : List Nat) : Int :=
  ds.foldl (fun v d => v * 10 + (d : Int)) a

/-- Value of a run of decimal digits, unsigned accumulator. -/
def digitFoldN (a : Nat) (ds : List Nat) : Nat :=
  ds.foldl (fun v d => v * 10 + d) a

theorem digitFoldI_cons (a : Int) (d : Nat) (ds : List Nat) :
    digitFoldI a (d :: ds) = digitFoldI (a * 10 + (d : Int)) ds := rfl

theorem digitFoldN_cons (a : Nat) (d : Nat) (ds : List Nat) :
    digitFoldN a (d :: ds) = digitFoldN (a * 10 + d) ds := rfl

theorem digitFoldI_ge (ds : List Nat) : ∀ a : Int, 0 ≤ a → a ≤ digitFoldI a ds := by
  induction ds with
  | nil => intro a _; exact le_refl a
  | cons d ds ih =>
    intro a ha
    have h1 : a ≤ a * 10 + (d : Int) := by
      have : (0 : Int) ≤ (d : Int) := Int.ofNat_nonneg d
      nlinarith
    have h2 : (0 : Int) ≤ a * 10 + (d : Int) := by
      have : (0 : Int) ≤ (d : Int) := Int.ofNat_nonneg d
      nlinarith
    exact le_trans h1 (by simpa [digitFoldI_cons] using ih (a * 10 + (d : Int)) h2)

theorem digitFoldI_nonneg (ds : List Nat) (a : Int) (ha : 0 ≤ a) : 0 ≤ digitFoldI a ds :=
  le_trans ha (digitFoldI_ge ds a ha)

theorem digitFoldN_ge (ds : List Nat) : ∀ a : Nat, a ≤ digitFoldN a ds := by
  induction ds with
  | nil => intro a; exact le_refl a
  | cons d ds ih =>
    intro a
    have h1 : a ≤ a * 10 + d := by omega
    exact le_trans h1 (by simpa [digitFoldN_cons] using ih (a * 10 + d))

theorem digitFoldI_natCast (ds : List Nat) : ∀ a : Nat, digitFoldI (a : Int) ds = (digitFoldN a ds : Int) := by
  induction ds with
  | nil => intro a; rfl
  | cons d ds ih =>
    intro a
    rw [digitFoldI_cons, digitFoldN_cons]
    have : (a : Int) * 10 + (d : Int) = ((a * 10 + d : Nat) : Int) := by push_cast; ring
    rw [this, ih]

/-- Little-endian decimal digits of `n`; the fuel argument only bounds the
recursion and any `fuel ≥ n` is enough. -/
def natDigitsRev : Nat → Nat → List Nat
  | 0, _ => []
  | fuel + 1, n => if n = 0 then [] else n % 10 :: natDigitsRev fuel (n / 10)

/-- Numeric value of a little-endian digit list. -/
def ofDigitsLE : List Nat → Nat
  | [] => 0
  | d :: ds => d + 10 * ofDigitsLE ds

/-- Big-endian decimal digit list of `n` (so `natDigits 0 = [0]`). -/
def natDigits (n : Nat) : List Nat :=
  if n = 0 then [0] else (natDigitsRev n n).reverse

theorem natDigitsRev_ofLE : ∀ fuel n, n ≤ fuel → ofDigitsLE (natDigitsRev fuel n) = n := by
  intro fuel
  induction fuel with
  | zero => intro n hn; interval_cases n; rfl
  | succ fuel ih =>
    intro n hn
    by_cases h0 : n = 0
    · simp [natDigitsRev, h0, ofDigitsLE]
    · have hdiv : n / 10 ≤ fuel := by
        have := Nat.div_lt_self (Nat.pos_of_ne_zero h0) (by norm_num : 1 < 10)
        omega
      simp only [natDigitsRev, h0, if_false, ofDigitsLE, ih (n / 10) hdiv]
      omega

theorem natDigitsRev_lt10 : ∀ fuel n d, d ∈ natDigitsRev fuel n → d < 10 := by
  intro fuel
  induction fuel with
  | zero => intro n d h; simp [natDigitsRev] at h
  | succ fuel ih =>
    intro n d h
    by_cases h0 : n = 0
    · simp [natDigitsRev, h0] at h
    · simp only [natDigitsRev, h0, if_false, List.mem_cons] at h
      rcases h with h | h
      · subst h; exact Nat.mod_lt _ (by norm_num)
      · exact ih _ _ h

theorem foldr_ofLE : ∀ ds : List Nat, List.foldr (fun d v => v * 10 + d) 0 ds = ofDigitsLE ds := by
  intro ds
  induction ds with
  | nil => rfl
  | cons d ds ih => simp [List.foldr, ofDigitsLE, ih]; omega

theorem digitFoldN_reverse (ds : List Nat) : digitFoldN 0 ds.reverse = ofDigitsLE ds := by
  unfold digitFoldN
  rw [List.foldl_reverse]
  exact foldr_ofLE ds

theorem natDigits_lt10 (n : Nat) : ∀ d ∈ natDigits n, d < 10 := by
  intro d hd
  unfold natDigits at hd
  by_cases h0 : n = 0
  · simp [h0] at hd; omega
  · simp only [h0, if_false, List.mem_reverse] at hd
    exact natDigitsRev_lt10 n n d hd

theorem natDigits_ne_nil (n : Nat) : natDigits n ≠ [] := by
  unfold natDigits
  by_cases h0 : n = 0
  · simp [h0]
  · simp only [h0, if_false, ne_eq, List.reverse_eq_nil_iff]
    cases hn : n with
    | zero => exact absurd hn h0
    | succ m => simp [natDigitsRev, h0]

theorem digitFoldN_natDigits (n : Nat) : digitFoldN 0 (natDigits n) = n := by
  unfold natDigits
  by_cases h0 : n = 0
  · simp [h0, digitFoldN]
  · simp only [h0, if_false]
    rw [digitFoldN_reverse]
    exact natDigitsRev_ofLE n n le_rfl

/-! Step lemmas for the checked multiply-add done per digit. -/

theorem checked_step_I {a : Int} {d : Nat} (ha : 0 ≤ a) (h : a * 10 + (d : Int) ≤ I64_MAX) :
    (checked_mulI a 10).bind (fun n => checked_addI n ((d : Nat) : Int)) = some (a * 10 + (d : Int)) := by
  have hd : (0 : Int) ≤ (d : Int) := Int.ofNat_nonneg d
  have hMIN : I64_MIN ≤ 0 := by unfold I64_MIN; norm_num
  have h1 : I64_MIN ≤ a * 10 ∧ a * 10 ≤ I64_MAX := by constructor <;> nlinarith
  have h2 : I64_MIN ≤ a * 10 + (d : Int) ∧ a * 10 + (d : Int) ≤ I64_MAX := by
    constructor <;> nlinarith
  simp [checked_mulI, checked_addI, h1, h2]

theorem checked_step_I_none {a : Int} {d : Nat} (ha : 0 ≤ a) (h : I64_MAX < a * 10 + (d : Int)) :
    (checked_mulI a 10).bind (fun n => checked_addI n ((d : Nat) : Int)) = none := by
  have hd : (0 : Int) ≤ (d : Int) := Int.ofNat_nonneg d
  by_cases hm : I64_MIN ≤ a * 10 ∧ a * 10 ≤ I64_MAX
  · have hnot : ¬ (I64_MIN ≤ a * 10 + (d : Int) ∧ a * 10 + (d : Int) ≤ I64_MAX) := by
      intro hcon; exact absurd hcon.2 (not_le.2 h)
    simp [checked_mulI, checked_addI, hm, hnot]
  · simp [checked_mulI, hm]

theorem checked_step_U {a d : Nat} (h : a * 10 + d ≤ USIZE_MAX) :
    (checked_mulU a 10).bind (fun n => checked_addU n d) = some (a * 10 + d) := by
  have h1 : a * 10 ≤ USIZE_MAX := by omega
  simp [checked_mulU, checked_addU, h1, h]

theorem checked_step_U_none {a d : Nat} (h : USIZE_MAX < a * 10 + d) :
    (checked_mulU a 10).bind (fun n => checked_addU n d) = none := by
  by_cases hm : a * 10 ≤ USIZE_MAX
  · have hnot : ¬ (a * 10 + d ≤ USIZE_MAX) := by omega
    simp [checked_mulU, checked_addU, hm, hnot]
  · simp [checked_mulU, hm]

theorem parse_i64_go_ok (stop_char : Byte) (negative : Bool)
    (hstop : ¬ (48 ≤ stop_char ∧ stop_char ≤ 57)) :
    ∀ (ds : List Nat) (pre post : List Byte) (a : Int) (fuel : Nat),
      (∀ d ∈ ds, d < 10) →
      0 ≤ a →
      digitFoldI a ds ≤ I64_MAX →
      ds.length + 1 ≤ fuel →
      parse_i64_go (pre ++ ds.map (fun x => x + 48) ++ stop_char :: post) stop_char negative fuel a pre.length
        = (.ok (if negative then digitFoldI a ds * (-1) else digitFoldI a ds),
           pre.length + ds.length + 1) := by
  intro ds
  induction ds with
  | nil =>
    intro pre post a fuel _ ha hmax hfuel
    obtain ⟨f, rfl⟩ : ∃ f, fuel = f + 1 := ⟨fuel - 1, by omega⟩
    have hb : (pre ++ ([] : List Nat).map (fun x => x + 48) ++ stop_char :: post).get? pre.length = some stop_char := by
      simpa using get?_len_append pre stop_char post
    simp only [parse_i64_go, hb]
    rw [if_neg hstop]
    simp [digitFoldI]
  | cons d ds ih =>
    intro pre post a fuel hds ha hmax hfuel
    obtain ⟨f, rfl⟩ : ∃ f, fuel = f + 1 := ⟨fuel - 1, by omega⟩
    have hd10 : d < 10 := hds d (List.mem_cons_self _ _)
    have hb : (pre ++ ((d :: ds).map (fun x => x + 48)) ++ stop_char :: post).get? pre.length
        = some (d + 48) := by
      have heq : pre ++ ((d :: ds).map (fun x => x + 48)) ++ stop_char :: post
          = pre ++ (d + 48) :: (ds.map (fun x => x + 48) ++ stop_char :: post) := by simp
      rw [heq]; exact get?_len_append _ _ _
    have hdig : 48 ≤ d + 48 ∧ d + 48 ≤ 57 := by omega
    have hnn : (0 : Int) ≤ a * 10 + (d : Int) := by
      have : (0:Int) ≤ (d:Int) := Int.ofNat_nonneg d
      nlinarith
    rw [digitFoldI_cons] at hmax
    have hstep_le : a * 10 + (d : Int) ≤ I64_MAX :=
      le_trans (digitFoldI_ge ds _ hnn) hmax
    have hchk := checked_step_I ha hstep_le
    have hsub : (d + 48 - 48 : Nat) = d := by omega
    simp only [parse_i64_go, hb, hsub, if_pos hdig, hchk]
    have hre : pre ++ ((d :: ds).map (fun x => x + 48)) ++ stop_char :: post
        = (pre ++ [d + 48]) ++ ds.map (fun x => x + 48) ++ stop_char :: post := by simp
    rw [hre]
    have hds' : ∀ x ∈ ds, x < 10 := fun x hx => hds x (List.mem_cons_of_mem _ hx)
    have hfuel' : ds.length + 1 ≤ f := by
      simp only [List.length_cons] at hfuel; omega
    have h2 := ih (pre ++ [d + 48]) post (a * 10 + (d : Int)) f hds' hnn hmax hfuel'
    have hlen : (pre ++ [d + 48]).length = pre.length + 1 := by simp
    rw [hlen] at h2
    rw [digitFoldI_cons]
    rw [h2, List.length_cons]
    congr 1
    omega

theorem parse_usize_go_ok (stop_char : Byte)
    (hstop : ¬ (48 ≤ stop_char ∧ stop_char ≤ 57)) :
    ∀ (ds : List Nat) (pre post : List Byte) (a : Nat) (fuel : Nat),
      (∀ d ∈ ds, d < 10) →
      digitFoldN a ds ≤ USIZE_MAX →
      ds.length + 1 ≤ fuel →
      parse_usize_go (pre ++ ds.map (fun x => x + 48) ++ stop_char :: post) stop_char fuel a pre.length
        = (.ok (digitFoldN a ds), pre.length + ds.length + 1) := by
  intro ds
  induction ds with
  | nil =>
    intro pre post a fuel _ hmax hfuel
    obtain ⟨f, rfl⟩ : ∃ f, fuel = f + 1 := ⟨fuel - 1, by omega⟩
    have hb : (pre ++ ([] : List Nat).map (fun x => x + 48) ++ stop_char :: post).get? pre.length = some stop_char := by
      simpa using get?_len_append pre stop_char post
    simp only [parse_usize_go, hb]
    rw [if_neg hstop]
    simp [digitFoldN]
  | cons d ds ih =>
    intro pre post a fuel hds hmax hfuel
    obtain ⟨f, rfl⟩ : ∃ f, fuel = f + 1 := ⟨fuel - 1, by omega⟩
    have hd10 : d < 10 := hds d (List.mem_cons_self _ _)
    have hb : (pre ++ ((d :: ds).map (fun x => x + 48)) ++ stop_char :: post).get? pre.length
        = some (d + 48) := by
      have heq : pre ++ ((d :: ds).map (fun x => x + 48)) ++ stop_char :: post
          = pre ++ (d + 48) :: (ds.map (fun x => x + 48) ++ stop_char :: post) := by simp
      rw [heq]; exact get?_len_append _ _ _
    have hdig : 48 ≤ d + 48 ∧ d + 48 ≤ 57 := by omega
    rw [digitFoldN_cons] at hmax
    have hstep_le : a * 10 + d ≤ USIZE_MAX :=
      le_trans (digitFoldN_ge ds _) hmax
    have hchk := checked_step_U hstep_le
    have hsub : (d + 48 - 48 : Nat) = d := by omega
    simp only [parse_usize_go, hb, hsub, if_pos hdig, hchk]
    have hre : pre ++ ((d :: ds).map (fun x => x + 48)) ++ stop_char :: post
        = (pre ++ [d + 48]) ++ ds.map (fun x => x + 48) ++ stop_char :: post := by simp
    rw [hre]
    have hds' : ∀ x ∈ ds, x < 10 := fun x hx => hds x (List.mem_cons_of_mem _ hx)
    have hfuel' : ds.length + 1 ≤ f := by
      simp only [List.length_cons] at hfuel; omega
    have h2 := ih (pre ++ [d + 48]) post (a * 10 + d) f hds' hmax hfuel'
    have hlen : (pre ++ [d + 48]).length = pre.length + 1 := by simp
    rw [hlen] at h2
    rw [digitFoldN_cons]
    rw [h2, List.length_cons]
    congr 1
    omega

theorem parse_i64_go_overflow (stop_char : Byte) (negative : Bool) :
    ∀ (j : Nat) (ds : List Nat) (pre post : List Byte) (a : Int) (fuel : Nat),
      (∀ d ∈ ds, d < 10) →
      0 ≤ a →
      j < ds.length →
      digitFoldI a (ds.take j) ≤ I64_MAX →
      I64_MAX < digitFoldI a (ds.take (j + 1)) →
      j + 1 ≤ fuel →
      parse_i64_go (pre ++ ds.map (fun x => x + 48) ++ post) stop_char negative fuel a pre.length
        = (.error (.overflow (pre.length + j + 1)), pre.length + j + 1) := by
  intro j
  induction j with
  | zero =>
    intro ds pre post a fuel hds ha hj hle hgt hfuel
    obtain ⟨f, rfl⟩ : ∃ f, fuel = f + 1 := ⟨fuel - 1, by omega⟩
    obtain ⟨d, ds', rfl⟩ : ∃ d ds', ds = d :: ds' := by
      cases ds with
      | nil => simp at hj
      | cons d ds' => exact ⟨d, ds', rfl⟩
    have hd10 : d < 10 := hds d (List.mem_cons_self _ _)
    have hb : (pre ++ ((d :: ds').map (fun x => x + 48)) ++ post).get? pre.length
        = some (d + 48) := by
      have heq : pre ++ ((d :: ds').map (fun x => x + 48)) ++ post
          = pre ++ (d + 48) :: (ds'.map (fun x => x + 48) ++ post) := by simp
      rw [heq]; exact get?_len_append _ _ _
    have hdig : 48 ≤ d + 48 ∧ d + 48 ≤ 57 := by omega
    simp only [List.take_zero, digitFoldI] at hle
    rw [List.take_succ_cons, List.take_zero] at hgt
    have hgt' : I64_MAX < a * 10 + (d : Int) := by
      simpa [digitFoldI_cons, digitFoldI] using hgt
    have hchk := checked_step_I_none ha hgt'
    have hsub : (d + 48 - 48 : Nat) = d := by omega
    simp only [parse_i64_go, hb, hsub, if_pos hdig, hchk]
  | succ j ih =>
    intro ds pre post a fuel hds ha hj hle hgt hfuel
    obtain ⟨f, rfl⟩ : ∃ f, fuel = f + 1 := ⟨fuel - 1, by omega⟩
    obtain ⟨d, ds', rfl⟩ : ∃ d ds', ds = d :: ds' := by
      cases ds with
      | nil => simp at hj
      | cons d ds' => exact ⟨d, ds', rfl⟩
    have hd10 : d < 10 := hds d (List.mem_cons_self _ _)
    have hb : (pre ++ ((d :: ds').map (fun x => x + 48)) ++ post).get? pre.length
        = some (d + 48) := by
      have heq : pre ++ ((d :: ds').map (fun x => x + 48)) ++ post
          = pre ++ (d + 48) :: (ds'.map (fun x => x + 48) ++ post) := by simp
      rw [heq]; exact get?_len_append _ _ _
    have hdig : 48 ≤ d + 48 ∧ d + 48 ≤ 57 := by omega
    have hnn : (0 : Int) ≤ a * 10 + (d : Int) := by
      have : (0:Int) ≤ (d:Int) := Int.ofNat_nonneg d
      nlinarith
    rw [List.take_succ_cons, digitFoldI_cons] at hle
    rw [List.take_succ_cons, digitFoldI_cons] at hgt
    have hstep_le : a * 10 + (d : Int) ≤ I64_MAX :=
      le_trans (digitFoldI_ge (ds'.take j) _ hnn) hle
    have hchk := checked_step_I ha hstep_le
    have hsub : (d + 48 - 48 : Nat) = d := by omega
    simp only [parse_i64_go, hb, hsub, if_pos hdig, hchk]
    have hre : pre ++ ((d :: ds').map (fun x => x + 48)) ++ post
        = (pre ++ [d + 48]) ++ ds'.map (fun x => x + 48) ++ post := by simp
    rw [hre]
    have hds' : ∀ x ∈ ds', x < 10 := fun x hx => hds x (List.mem_cons_of_mem _ hx)
    have hj' : j < ds'.length := by simp only [List.length_cons] at hj; omega
    have hfuel' : j + 1 ≤ f := by omega
    have h2 := ih ds' (pre ++ [d + 48]) post (a * 10 + (d : Int)) f hds' hnn hj' hle hgt hfuel'
    have hlen : (pre ++ [d + 48]).length = pre.length + 1 := by simp
    rw [hlen] at h2
    rw [show pre.length + 1 + j + 1 = pre.length + (j + 1) + 1 from by omega] at h2
    exact h2

theorem parse_usize_go_overflow (stop_char : Byte) :
    ∀ (j : Nat) (ds : List Nat) (pre post : List Byte) (a : Nat) (fuel : Nat),
      (∀ d ∈ ds, d < 10) →
      j < ds.length →
      digitFoldN a (ds.take j) ≤ USIZE_MAX →
      USIZE_MAX < digitFoldN a (ds.take (j + 1)) →
      j + 1 ≤ fuel →
      parse_usize_go (pre ++ ds.map (fun x => x + 48) ++ post) stop_char fuel a pre.length
        = (.error (.overflow (pre.length + j + 1)), pre.length + j + 1) := by
  intro j
  induction j with
  | zero =>
    intro ds pre post a fuel hds hj hle hgt hfuel
    obtain ⟨f, rfl⟩ : ∃ f, fuel = f + 1 := ⟨fuel - 1, by omega⟩
    obtain ⟨d, ds', rfl⟩ : ∃ d ds', ds = d :: ds' := by
      cases ds with
      | nil => simp at hj
      | cons d ds' => exact ⟨d, ds', rfl⟩
    have hd10 : d < 10 := hds d (List.mem_cons_self _ _)
    have hb : (pre ++ ((d :: ds').map (fun x => x + 48)) ++ post).get? pre.length
        = some (d + 48) := by
      have heq : pre ++ ((d :: ds').map (fun x => x + 48)) ++ post
          = pre ++ (d + 48) :: (ds'.map (fun x => x + 48) ++ post) := by simp
      rw [heq]; exact get?_len_append _ _ _
    have hdig : 48 ≤ d + 48 ∧ d + 48 ≤ 57 := by omega
    rw [List.take_succ_cons, List.take_zero] at hgt
    have hgt' : USIZE_MAX < a * 10 + d := by
      simpa [digitFoldN_cons, digitFoldN] using hgt
    have hchk := checked_step_U_none hgt'
    have hsub : (d + 48 - 48 : Nat) = d := by omega
    simp only [parse_usize_go, hb, hsub, if_pos hdig, hchk]
  | succ j ih =>
    intro ds pre post a fuel hds hj hle hgt hfuel
    obtain ⟨f, rfl⟩ : ∃ f, fuel = f + 1 := ⟨fuel - 1, by omega⟩
    obtain ⟨d, ds', rfl⟩ : ∃ d ds', ds = d :: ds' := by
      cases ds with
      | nil => simp at hj
      | cons d ds' => exact ⟨d, ds', rfl⟩
    have hd10 : d < 10 := hds d (List.mem_cons_self _ _)
    have hb : (pre ++ ((d :: ds').map (fun x => x + 48)) ++ post).get? pre.length
        = some (d + 48) := by
      have heq : pre ++ ((d :: ds').map (fun x => x + 48)) ++ post
          = pre ++ (d + 48) :: (ds'.map (fun x => x + 48) ++ post) := by simp
      rw [heq]; exact get?_len_append _ _ _
    have hdig : 48 ≤ d + 48 ∧ d + 48 ≤ 57 := by omega
    rw [List.take_succ_cons, digitFoldN_cons] at hle
    rw [List.take_succ_cons, digitFoldN_cons] at hgt
    have hstep_le : a * 10 + d ≤ USIZE_MAX :=
      le_trans (digitFoldN_ge (ds'.take j) _) hle
    have hchk := checked_step_U hstep_le
    have hsub : (d + 48 - 48 : Nat) = d := by omega
    simp only [parse_usize_go, hb, hsub, if_pos hdig, hchk]
    have hre : pre ++ ((d :: ds').map (fun x => x + 48)) ++ post
        = (pre ++ [d + 48]) ++ ds'.map (fun x => x + 48) ++ post := by simp
    rw [hre]
    have hds' : ∀ x ∈ ds', x < 10 := fun x hx => hds x (List.mem_cons_of_mem _ hx)
    have hj' : j < ds'.length := by simp only [List.length_cons] at hj; omega
    have hfuel' : j + 1 ≤ f := by omega
    have h2 := ih ds' (pre ++ [d + 48]) post (a * 10 + d) f hds' hj' hle hgt hfuel'
    have hlen : (pre ++ [d + 48]).length = pre.length + 1 := by simp
    rw [hlen] at h2
    rw [show pre.length + 1 + j + 1 = pre.length + (j + 1) + 1 from by omega] at h2
    exact h2

theorem parse_i64_go_trunc (stop_char : Byte) (negative : Bool) :
    ∀ (fuel : Nat) (buf : List Byte) (a : Int) (pos : Nat) (v : Int) (p' : Nat),
      parse_i64_go buf stop_char negative fuel a pos = (.ok v, p') →
      pos < p' ∧ p' ≤ buf.length ∧
      (∀ k fuel2, p' ≤ k → (buf.take k).length - pos < fuel2 →
          parse_i64_go (buf.take k) stop_char negative fuel2 a pos = (.ok v, p')) ∧
      (∀ k fuel2, pos ≤ k → k < p' → (buf.take k).length - pos < fuel2 →
          (parse_i64_go (buf.take k) stop_char negative fuel2 a pos).1 = .error .eof) := by
  intro fuel
  induction fuel with
  | zero => intro buf a pos v p' h; simp [parse_i64_go] at h
  | succ fuel ih =>
    intro buf a pos v p' h
    simp only [parse_i64_go] at h
    cases hg : buf.get? pos with
    | none => rw [hg] at h; simp at h
    | some c =>
      rw [hg] at h
      dsimp only [] at h
      have hposlen : pos < buf.length := by
        by_contra hc
        have hnone : buf.get? pos = none := List.get?_eq_none.2 (by omega)
        rw [hnone] at hg; cases hg
      by_cases hdig : 48 ≤ c ∧ c ≤ 57
      · rw [if_pos hdig] at h
        cases hcb : (checked_mulI a 10).bind (fun n => checked_addI n ((c - 48 : Nat) : Int)) with
        | none => rw [hcb] at h; simp at h
        | some n =>
          rw [hcb] at h
          dsimp only [] at h
          obtain ⟨h1, h2, h3, h4⟩ := ih buf n (pos + 1) v p' h
          refine ⟨by omega, h2, ?_, ?_⟩
          · intro k fuel2 hk hf2
            have hposk : pos < k := by omega
            have hlt : pos < (buf.take k).length := by
              rw [List.length_take]; omega
            obtain ⟨f2, rfl⟩ : ∃ f2, fuel2 = f2 + 1 := ⟨fuel2 - 1, by omega⟩
            simp only [parse_i64_go, get?_take_lt buf hposk, hg, if_pos hdig, hcb]
            exact h3 k f2 hk (by omega)
          · intro k fuel2 hk1 hk2 hf2
            obtain ⟨f2, rfl⟩ : ∃ f2, fuel2 = f2 + 1 := ⟨fuel2 - 1, by omega⟩
            by_cases hke : k = pos
            · subst hke
              simp [parse_i64_go, getElem?_take_ge buf (le_refl k)]
            · have hposk : pos < k := by omega
              have hlt : pos < (buf.take k).length := by
                rw [List.length_take]; omega
              simp only [parse_i64_go, get?_take_lt buf hposk, hg, if_pos hdig, hcb]
              exact h4 k f2 (by omega) hk2 (by omega)
      · rw [if_neg hdig] at h
        by_cases hstop : c = stop_char
        · rw [if_pos hstop] at h
          simp only [Prod.mk.injEq, Except.ok.injEq] at h
          obtain ⟨hv, hp⟩ := h
          refine ⟨by omega, by omega, ?_, ?_⟩
          · intro k fuel2 hk hf2
            have hposk : pos < k := by omega
            obtain ⟨f2, rfl⟩ : ∃ f2, fuel2 = f2 + 1 := ⟨fuel2 - 1, by omega⟩
            simp only [parse_i64_go, get?_take_lt buf hposk, hg, if_neg hdig, if_pos hstop]
            rw [hv, hp]
          · intro k fuel2 hk1 hk2 hf2
            have hke : k = pos := by omega
            subst hke
            obtain ⟨f2, rfl⟩ : ∃ f2, fuel2 = f2 + 1 := ⟨fuel2 - 1, by omega⟩
            simp [parse_i64_go, getElem?_take_ge buf (le_refl k)]
        · rw [if_neg hstop] at h
          simp at h

theorem parse_usize_go_trunc (stop_char : Byte) :
    ∀ (fuel : Nat) (buf : List Byte) (a : Nat) (pos : Nat) (v : Nat) (p' : Nat),
      parse_usize_go buf stop_char fuel a pos = (.ok v, p') →
      pos < p' ∧ p' ≤ buf.length ∧
      (∀ k fuel2, p' ≤ k → (buf.take k).length - pos < fuel2 →
          parse_usize_go (buf.take k) stop_char fuel2 a pos = (.ok v, p')) ∧
      (∀ k fuel2, pos ≤ k → k < p' → (buf.take k).length - pos < fuel2 →
          (parse_usize_go (buf.take k) stop_char fuel2 a pos).1 = .error .eof) := by
  intro fuel
  induction fuel with
  | zero => intro buf a pos v p' h; simp [parse_usize_go] at h
  | succ fuel ih =>
    intro buf a pos v p' h
    simp only [parse_usize_go] at h
    cases hg : buf.get? pos with
    | none => rw [hg] at h; simp at h
    | some c =>
      rw [hg] at h
      dsimp only [] at h
      have hposlen : pos < buf.length := by
        by_contra hc
        have hnone : buf.get? pos = none := List.get?_eq_none.2 (by omega)
        rw [hnone] at hg; cases hg
      by_cases hdig : 48 ≤ c ∧ c ≤ 57
      · rw [if_pos hdig] at h
        cases hcb : (checked_mulU a 10).bind (fun n => checked_addU n (c - 48)) with
        | none => rw [hcb] at h; simp at h
        | some n =>
          rw [hcb] at h
          dsimp only [] at h
          obtain ⟨h1, h2, h3, h4⟩ := ih buf n (pos + 1) v p' h
          refine ⟨by omega, h2, ?_, ?_⟩
          · intro k fuel2 hk hf2
            have hposk : pos < k := by omega
            have hlt : pos < (buf.take k).length := by
              rw [List.length_take]; omega
            obtain ⟨f2, rfl⟩ : ∃ f2, fuel2 = f2 + 1 := ⟨fuel2 - 1, by omega⟩
            simp only [parse_usize_go, get?_take_lt buf hposk, hg, if_pos hdig, hcb]
            exact h3 k f2 hk (by omega)
          · intro k fuel2 hk1 hk2 hf2
            obtain ⟨f2, rfl⟩ : ∃ f2, fuel2 = f2 + 1 := ⟨fuel2 - 1, by omega⟩
            by_cases hke : k = pos
            · subst hke
              simp [parse_usize_go, getElem?_take_ge buf (le_refl k)]
            · have hposk : pos < k := by omega
              have hlt : pos < (buf.take k).length := by
                rw [List.length_take]; omega
              simp only [parse_usize_go, get?_take_lt buf hposk, hg, if_pos hdig, hcb]
              exact h4 k f2 (by omega) hk2 (by omega)
      · rw [if_neg hdig] at h
        by_cases hstop : c = stop_char
        · rw [if_pos hstop] at h
          simp only [Prod.mk.injEq, Except.ok.injEq] at h
          obtain ⟨hv, hp⟩ := h
          refine ⟨by omega, by omega, ?_, ?_⟩
          · intro k fuel2 hk hf2
            have hposk : pos < k := by omega
            obtain ⟨f2, rfl⟩ : ∃ f2, fuel2 = f2 + 1 := ⟨fuel2 - 1, by omega⟩
            simp only [parse_usize_go, get?_take_lt buf hposk, hg, if_neg hdig, if_pos hstop]
            rw [hv, hp]
          · intro k fuel2 hk1 hk2 hf2
            have hke : k = pos := by omega
            subst hke
            obtain ⟨f2, rfl⟩ : ∃ f2, fuel2 = f2 + 1 := ⟨fuel2 - 1, by omega⟩
            simp [parse_usize_go, getElem?_take_ge buf (le_refl k)]
        · rw [if_neg hstop] at h
          simp at h

theorem peek_char_take_lt (l : List Byte) {i k : Nat} (h : i < k) :
    peek_char (l.take k) i = peek_char l i := by
  unfold peek_char
  rw [get?_take_lt l h]

theorem peek_char_take_ge (l : List Byte) {i k : Nat} (h : k ≤ i) :
    peek_char (l.take k) i = .error .eof := by
  unfold peek_char
  rw [get?_take_ge l h]

theorem peek_char_ok_lt {buf : List Byte} {pos : Nat} {c : Byte}
    (h : peek_char buf pos = .ok c) : pos < buf.length := by
  by_contra hc
  have hnone : buf.get? pos = none := List.get?_eq_none.2 (by omega)
  unfold peek_char at h
  rw [hnone] at h
  cases h

theorem peek_char_get {buf : List Byte} {pos : Nat} {c : Byte}
    (h : peek_char buf pos = .ok c) : buf.get? pos = some c := by
  unfold peek_char at h
  cases hg : buf.get? pos with
  | none => rw [hg] at h; cases h
  | some c' => rw [hg] at h; cases h; rfl

/-- Truncation behaviour of `parse_i64`: a successful parse keeps succeeding on
any truncation past its end position and turns into end-of-input on any
truncation before it. -/
theorem parse_i64_trunc (stop_char : Byte) (buf : List Byte) (pos : Nat) (v : Int) (p' : Nat)
    (h : parse_i64 buf stop_char pos = (.ok v, p')) :
    pos < p' ∧ p' ≤ buf.length ∧
    (∀ k, p' ≤ k → parse_i64 (buf.take k) stop_char pos = (.ok v, p')) ∧
    (∀ k, pos ≤ k → k < p' → (parse_i64 (buf.take k) stop_char pos).1 = .error .eof) := by
  unfold parse_i64 at h ⊢
  cases hp0 : peek_char buf pos with
  | error e => rw [hp0] at h; cases h
  | ok c0 =>
    rw [hp0] at h
    dsimp only [] at h
    have hpos0 : pos < buf.length := peek_char_ok_lt hp0
    by_cases h45 : c0 = 45
    · rw [if_pos h45] at h
      unfold parse_i64_digits at h
      cases hp1 : peek_char buf (pos + 1) with
      | error e => rw [hp1] at h; cases h
      | ok c =>
        rw [hp1] at h
        dsimp only [] at h
        have hpos1 : pos + 1 < buf.length := peek_char_ok_lt hp1
        by_cases hdig : 48 ≤ c ∧ c ≤ 57
        · rw [if_pos hdig] at h
          obtain ⟨h1, h2, h3, h4⟩ := parse_i64_go_trunc stop_char true (buf.length + 1) buf 0 (pos + 1) v p' h
          refine ⟨by omega, h2, ?_, ?_⟩
          · intro k hk
            rw [peek_char_take_lt buf (show pos < k by omega), hp0]
            dsimp only []
            rw [if_pos h45]
            unfold parse_i64_digits
            rw [peek_char_take_lt buf (show pos + 1 < k by omega), hp1]
            dsimp only []
            rw [if_pos hdig]
            exact h3 k ((buf.take k).length + 1) hk (by omega)
          · intro k hk1 hk2
            by_cases hke : k = pos
            · subst hke
              rw [peek_char_take_ge buf (le_refl k)]
            · rw [peek_char_take_lt buf (show pos < k by omega), hp0]
              dsimp only []
              rw [if_pos h45]
              unfold parse_i64_digits
              by_cases hke1 : k = pos + 1
              · subst hke1
                rw [peek_char_take_ge buf (le_refl (pos + 1))]
              · rw [peek_char_take_lt buf (show pos + 1 < k by omega), hp1]
                dsimp only []
                rw [if_pos hdig]
                exact h4 k ((buf.take k).length + 1) (by omega) hk2 (by omega)
        · rw [if_neg hdig] at h; cases h
    · rw [if_neg h45] at h
      unfold parse_i64_digits at h
      cases hp1 : peek_char buf pos with
      | error e => rw [hp1] at h; cases h
      | ok c =>
        rw [hp1] at h
        dsimp only [] at h
        by_cases hdig : 48 ≤ c ∧ c ≤ 57
        · rw [if_pos hdig] at h
          obtain ⟨h1, h2, h3, h4⟩ := parse_i64_go_trunc stop_char false (buf.length + 1) buf 0 pos v p' h
          refine ⟨h1, h2, ?_, ?_⟩
          · intro k hk
            rw [peek_char_take_lt buf (show pos < k by omega), hp0]
            dsimp only []
            rw [if_neg h45]
            unfold parse_i64_digits
            rw [peek_char_take_lt buf (show pos < k by omega), hp1]
            dsimp only []
            rw [if_pos hdig]
            exact h3 k ((buf.take k).length + 1) hk (by omega)
          · intro k hk1 hk2
            by_cases hke : k = pos
            · subst hke
              rw [peek_char_take_ge buf (le_refl k)]
            · rw [peek_char_take_lt buf (show pos < k by omega), hp0]
              dsimp only []
              rw [if_neg h45]
              unfold parse_i64_digits
              rw [peek_char_take_lt buf (show pos < k by omega), hp1]
              dsimp only []
              rw [if_pos hdig]
              exact h4 k ((buf.take k).length + 1) (by omega) hk2 (by omega)
        · rw [if_neg hdig] at h; cases h

/-- Truncation behaviour of `parse_usize`, analogous to `parse_i64_trunc`. -/
theorem parse_usize_trunc (stop_char : Byte) (buf : List Byte) (pos : Nat) (v : Nat) (p' : Nat)
    (h : parse_usize buf stop_char pos = (.ok v, p')) :
    pos < p' ∧ p' ≤ buf.length ∧
    (∀ k, p' ≤ k → parse_usize (buf.take k) stop_char pos = (.ok v, p')) ∧
    (∀ k, pos ≤ k → k < p' → (parse_usize (buf.take k) stop_char pos).1 = .error .eof) := by
  unfold parse_usize at h ⊢
  cases hp0 : peek_char buf pos with
  | error e => rw [hp0] at h; cases h
  | ok c =>
    rw [hp0] at h
    dsimp only [] at h
    have hpos0 : pos < buf.length := peek_char_ok_lt hp0
    by_cases hdig : 48 ≤ c ∧ c ≤ 57
    · rw [if_pos hdig] at h
      obtain ⟨h1, h2, h3, h4⟩ := parse_usize_go_trunc stop_char (buf.length + 1) buf 0 pos v p' h
      refine ⟨h1, h2, ?_, ?_⟩
      · intro k hk
        rw [peek_char_take_lt buf (show pos < k by omega), hp0]
        dsimp only []
        rw [if_pos hdig]
        exact h3 k ((buf.take k).length + 1) hk (by omega)
      · intro k hk1 hk2
        by_cases hke : k = pos
        · subst hke
          rw [peek_char_take_ge buf (le_refl k)]
        · rw [peek_char_take_lt buf (show pos < k by omega), hp0]
          dsimp only []
          rw [if_pos hdig]
          exact h4 k ((buf.take k).length + 1) (by omega) hk2 (by omega)
    · rw [if_neg hdig] at h; cases h

/-- Truncation specification of an embedded decode operation: whenever it
succeeds, it consumed at least one byte, stayed inside the buffer, still
succeeds identically on any truncation at or past its end position, and fails
with end-of-input on any truncation strictly before its end position. -/
def TruncSpec (dec : DecFn α) : Prop :=
  ∀ buf pos v p', dec buf pos = (.ok v, p') →
    pos < p' ∧ p' ≤ buf.length ∧
    (∀ k, p' ≤ k → dec (buf.take k) pos = (.ok v, p')) ∧
    (∀ k, pos ≤ k → k < p' → (dec (buf.take k) pos).1 = .error .eof)

theorem decode_int_trunc : TruncSpec decode_int := by
  intro buf pos v p' h
  unfold decode_int next_char at h
  cases hp0 : peek_char buf pos with
  | error e => rw [hp0] at h; cases h
  | ok c0 =>
    rw [hp0] at h
    dsimp only [] at h
    have hpos0 : pos < buf.length := peek_char_ok_lt hp0
    by_cases hi : c0 = 105
    · rw [if_neg (by simpa using hi)] at h
      obtain ⟨h1, h2, h3, h4⟩ := parse_i64_trunc 101 buf (pos + 1) v p' h
      refine ⟨by omega, h2, ?_, ?_⟩
      · intro k hk
        unfold decode_int next_char
        rw [peek_char_take_lt buf (show pos < k by omega), hp0]
        dsimp only []
        rw [if_neg (by simpa using hi)]
        exact h3 k hk
      · intro k hk1 hk2
        unfold decode_int next_char
        by_cases hke : k = pos
        · subst hke
          rw [peek_char_take_ge buf (le_refl k)]
        · rw [peek_char_take_lt buf (show pos < k by omega), hp0]
          dsimp only []
          rw [if_neg (by simpa using hi)]
          exact h4 k (by omega) hk2
    · rw [if_pos (by simpa using hi)] at h
      cases h

theorem decode_bytes_trunc : TruncSpec decode_bytes := by
  intro buf pos v p' h
  unfold decode_bytes at h
  cases hp0 : peek_char buf pos with
  | error e => rw [hp0] at h; cases h
  | ok c =>
    rw [hp0] at h
    dsimp only [] at h
    have hpos0 : pos < buf.length := peek_char_ok_lt hp0
    by_cases hdig : 48 ≤ c ∧ c ≤ 57
    · rw [if_pos hdig] at h
      cases hu : parse_usize buf 58 pos with
      | mk res p1 =>
        rw [hu] at h
        cases res with
        | error e => dsimp only [] at h; cases h
        | ok len =>
          dsimp only [] at h
          by_cases hle : p1 + len ≤ buf.length
          · rw [if_pos hle] at h
            simp only [Prod.mk.injEq, Except.ok.injEq] at h
            obtain ⟨hv, hp⟩ := h
            obtain ⟨u1, u2, u3, u4⟩ := parse_usize_trunc 58 buf pos len p1 hu
            refine ⟨by omega, by omega, ?_, ?_⟩
            · intro k hk
              unfold decode_bytes
              rw [peek_char_take_lt buf (show pos < k by omega), hp0]
              dsimp only []
              rw [if_pos hdig, u3 k (by omega)]
              dsimp only []
              have hlen2 : p1 + len ≤ (buf.take k).length := by
                rw [List.length_take]; omega
              rw [if_pos hlen2]
              have hslice : ((buf.take k).drop p1).take len = (buf.drop p1).take len := by
                rw [List.drop_take, List.take_take]
                congr 1
                omega
              rw [hslice, hv, hp]
            · intro k hk1 hk2
              unfold decode_bytes
              by_cases hke : k = pos
              · subst hke
                rw [peek_char_take_ge buf (le_refl k)]
              · rw [peek_char_take_lt buf (show pos < k by omega), hp0]
                dsimp only []
                rw [if_pos hdig]
                by_cases hkp1 : k < p1
                · cases hu2 : parse_usize (buf.take k) 58 pos with
                  | mk res2 q =>
                    have heof := u4 k (by omega) hkp1
                    rw [hu2] at heof
                    dsimp only [] at heof
                    subst heof
                    dsimp only []
                · rw [u3 k (by omega)]
                  dsimp only []
                  have hlen2 : ¬ (p1 + len ≤ (buf.take k).length) := by
                    rw [List.length_take]; omega
                  rw [if_neg hlen2]
          · rw [if_neg hle] at h
            cases h
    · rw [if_neg hdig] at h
      cases h

theorem vec_go_trunc {α : Type} (dec : DecFn α) (hdec : TruncSpec dec) :
    ∀ (fuel : Nat) (buf : List Byte) (acc : List α) (pos : Nat) (out : List α) (p2 : Nat),
      vec_go dec buf fuel acc pos = (.ok out, p2) →
      pos ≤ p2 ∧ p2 < buf.length ∧
      (∀ k fuel2, p2 < k → (buf.take k).length - pos < fuel2 →
          vec_go dec (buf.take k) fuel2 acc pos = (.ok out, p2)) ∧
      (∀ k fuel2, pos ≤ k → k ≤ p2 → (buf.take k).length - pos < fuel2 →
          (vec_go dec (buf.take k) fuel2 acc pos).1 = .error .eof) := by
  intro fuel
  induction fuel with
  | zero => intro buf acc pos out p2 h; simp [vec_go] at h
  | succ fuel ih =>
    intro buf acc pos out p2 h
    simp only [vec_go] at h
    unfold next_element at h
    cases hp : peek_char buf pos with
    | error e => rw [hp] at h; dsimp only [] at h; cases h
    | ok c =>
      rw [hp] at h
      dsimp only [] at h
      have hposlen : pos < buf.length := peek_char_ok_lt hp
      by_cases h101 : c = 101
      · rw [if_pos h101] at h
        dsimp only [] at h
        simp only [Prod.mk.injEq, Except.ok.injEq] at h
        obtain ⟨hacc, hpos⟩ := h
        refine ⟨by omega, by omega, ?_, ?_⟩
        · intro k fuel2 hk hf2
          have hposk : pos < k := by omega
          obtain ⟨f2, rfl⟩ : ∃ f2, fuel2 = f2 + 1 := ⟨fuel2 - 1, by omega⟩
          simp only [vec_go]
          unfold next_element
          rw [peek_char_take_lt buf hposk, hp]
          dsimp only []
          rw [if_pos h101]
          dsimp only []
          rw [hacc, hpos]
        · intro k fuel2 hk1 hk2 hf2
          have hke : k = pos := by omega
          subst hke
          obtain ⟨f2, rfl⟩ : ∃ f2, fuel2 = f2 + 1 := ⟨fuel2 - 1, by omega⟩
          simp only [vec_go]
          unfold next_element
          rw [peek_char_take_ge buf (le_refl k)]
      · rw [if_neg h101] at h
        cases hd : dec buf pos with
        | mk rd q =>
          rw [hd] at h
          cases rd with
          | error e => dsimp only [] at h; cases h
          | ok t =>
            dsimp only [] at h
            obtain ⟨d1, d2, d3, d4⟩ := hdec buf pos t q hd
            obtain ⟨i1, i2, i3, i4⟩ := ih buf (acc ++ [t]) q out p2 h
            refine ⟨by omega, i2, ?_, ?_⟩
            · intro k fuel2 hk hf2
              have hposk : pos < k := by omega
              have hlt : pos < (buf.take k).length := by
                rw [List.length_take]; omega
              obtain ⟨f2, rfl⟩ : ∃ f2, fuel2 = f2 + 1 := ⟨fuel2 - 1, by omega⟩
              simp only [vec_go]
              unfold next_element
              rw [peek_char_take_lt buf hposk, hp]
              dsimp only []
              rw [if_neg h101]
              rw [d3 k (by omega)]
              dsimp only []
              exact i3 k f2 hk (by omega)
            · intro k fuel2 hk1 hk2 hf2
              obtain ⟨f2, rfl⟩ : ∃ f2, fuel2 = f2 + 1 := ⟨fuel2 - 1, by omega⟩
              by_cases hke : k = pos
              · subst hke
                simp only [vec_go]
                unfold next_element
                rw [peek_char_take_ge buf (le_refl k)]
              · have hposk : pos < k := by omega
                have hlt : pos < (buf.take k).length := by
                  rw [List.length_take]; omega
                simp only [vec_go]
                unfold next_element
                rw [peek_char_take_lt buf hposk, hp]
                dsimp only []
                rw [if_neg h101]
                by_cases hkq : k < q
                · cases hd2 : dec (buf.take k) pos with
                  | mk rd2 q2 =>
                    have heof := d4 k (by omega) hkq
                    rw [hd2] at heof
                    dsimp only [] at heof
                    subst heof
                    dsimp only []
                · rw [d3 k (by omega)]
                  dsimp only []
                  exact i4 k f2 (by omega) hk2 (by omega)

theorem decode_vec_trunc {α : Type} (dec : DecFn α) (hdec : TruncSpec dec) :
    TruncSpec (decode_vec dec) := by
  intro buf pos v p' h
  unfold decode_vec decode_list next_char at h
  dsimp only [] at h
  cases hp : peek_char buf pos with
  | error e => rw [hp] at h; dsimp only [] at h; cases h
  | ok c =>
    rw [hp] at h
    dsimp only [] at h
    have hposlen : pos < buf.length := peek_char_ok_lt hp
    by_cases hc : c = 108
    · rw [if_neg (by simpa using hc)] at h
      cases hv : vec_go dec buf (buf.length + 1) [] (pos + 1) with
      | mk rv p2 =>
        rw [hv] at h
        cases rv with
        | error e => dsimp only [] at h; cases h
        | ok out =>
          dsimp only [] at h
          obtain ⟨g1, g2, g3, g4⟩ := vec_go_trunc dec hdec (buf.length + 1) buf [] (pos + 1) out p2 hv
          cases hp2 : peek_char buf p2 with
          | error e => rw [hp2] at h; dsimp only [] at h; cases h
          | ok c2 =>
            rw [hp2] at h
            dsimp only [] at h
            by_cases h101 : c2 = 101
            · rw [if_pos h101] at h
              simp only [Prod.mk.injEq, Except.ok.injEq] at h
              obtain ⟨hout, hp'⟩ := h
              refine ⟨by omega, by omega, ?_, ?_⟩
              · intro k hk
                unfold decode_vec decode_list next_char
                dsimp only []
                rw [peek_char_take_lt buf (show pos < k by omega), hp]
                dsimp only []
                rw [if_neg (by simpa using hc)]
                rw [g3 k ((buf.take k).length + 1) (by omega) (by omega)]
                dsimp only []
                rw [peek_char_take_lt buf (show p2 < k by omega), hp2]
                dsimp only []
                rw [if_pos h101, hout, hp']
              · intro k hk1 hk2
                unfold decode_vec decode_list next_char
                dsimp only []
                by_cases hke : k = pos
                · subst hke
                  rw [peek_char_take_ge buf (le_refl k)]
                · rw [peek_char_take_lt buf (show pos < k by omega), hp]
                  dsimp only []
                  rw [if_neg (by simpa using hc)]
                  cases hv2 : vec_go dec (buf.take k) ((buf.take k).length + 1) [] (pos + 1) with
                  | mk rv2 q2 =>
                    have heof := g4 k ((buf.take k).length + 1) (by omega) (by omega) (by omega)
                    rw [hv2] at heof
                    dsimp only [] at heof
                    subst heof
                    dsimp only []
            · rw [if_neg h101] at h
              cases h
    · rw [if_pos (by simpa using hc)] at h
      cases h

/-- Cursor-invariant specification of an embedded decode operation: from any
in-bounds position, the position after the call (success or failure) never
moves backwards and never exceeds the buffer length. -/
def PosSpec (dec : DecFn α) : Prop :=
  ∀ buf pos, pos ≤ buf.length → pos ≤ (dec buf pos).2 ∧ (dec buf pos).2 ≤ buf.length

theorem parse_i64_go_pos (stop_char : Byte) (negative : Bool) :
    ∀ (fuel : Nat) (buf : List Byte) (a : Int) (pos : Nat), pos ≤ buf.length →
      pos ≤ (parse_i64_go buf stop_char negative fuel a pos).2 ∧
      (parse_i64_go buf stop_char negative fuel a pos).2 ≤ buf.length := by
  intro fuel
  induction fuel with
  | zero => intro buf a pos hpos; simp [parse_i64_go]; omega
  | succ fuel ih =>
    intro buf a pos hpos
    simp only [parse_i64_go]
    cases hg : buf.get? pos with
    | none => dsimp only []; omega
    | some c =>
      dsimp only []
      have hposlen : pos < buf.length := by
        by_contra hc
        have hnone : buf.get? pos = none := List.get?_eq_none.2 (by omega)
        rw [hnone] at hg; cases hg
      by_cases hdig : 48 ≤ c ∧ c ≤ 57
      · rw [if_pos hdig]
        cases hcb : (checked_mulI a 10).bind (fun n => checked_addI n ((c - 48 : Nat) : Int)) with
        | none => dsimp only []; omega
        | some n =>
          dsimp only []
          have := ih buf n (pos + 1) (by omega)
          omega
      · rw [if_neg hdig]
        by_cases hstop : c = stop_char
        · rw [if_pos hstop]; dsimp only []; omega
        · rw [if_neg hstop]; dsimp only []; omega

theorem parse_usize_go_pos (stop_char : Byte) :
    ∀ (fuel : Nat) (buf : List Byte) (a : Nat) (pos : Nat), pos ≤ buf.length →
      pos ≤ (parse_usize_go buf stop_char fuel a pos).2 ∧
      (parse_usize_go buf stop_char fuel a pos).2 ≤ buf.length := by
  intro fuel
  induction fuel with
  | zero => intro buf a pos hpos; simp [parse_usize_go]; omega
  | succ fuel ih =>
    intro buf a pos hpos
    simp only [parse_usize_go]
    cases hg : buf.get? pos with
    | none => dsimp only []; omega
    | some c =>
      dsimp only []
      have hposlen : pos < buf.length := by
        by_contra hc
        have hnone : buf.get? pos = none := List.get?_eq_none.2 (by omega)
        rw [hnone] at hg; cases hg
      by_cases hdig : 48 ≤ c ∧ c ≤ 57
      · rw [if_pos hdig]
        cases hcb : (checked_mulU a 10).bind (fun n => checked_addU n (c - 48)) with
        | none => dsimp only []; omega
        | some n =>
          dsimp only []
          have := ih buf n (pos + 1) (by omega)
          omega
      · rw [if_neg hdig]
        by_cases hstop : c = stop_char
        · rw [if_pos hstop]; dsimp only []; omega
        · rw [if_neg hstop]; dsimp only []; omega

theorem parse_i64_pos (stop_char : Byte) :
    ∀ (buf : List Byte) (pos : Nat), pos ≤ buf.length →
      pos ≤ (parse_i64 buf stop_char pos).2 ∧ (parse_i64 buf stop_char pos).2 ≤ buf.length := by
  intro buf pos hpos
  unfold parse_i64
  cases hp0 : peek_char buf pos with
  | error e => dsimp only []; omega
  | ok c0 =>
    dsimp only []
    have hposlen : pos < buf.length := peek_char_ok_lt hp0
    have hgen : ∀ (neg : Bool) (q : Nat), q ≤ buf.length →
        q ≤ (parse_i64_digits buf stop_char neg q).2 ∧
        (parse_i64_digits buf stop_char neg q).2 ≤ buf.length := by
      intro neg q hq
      unfold parse_i64_digits
      cases hp1 : peek_char buf q with
      | error e => dsimp only []; omega
      | ok c =>
        dsimp only []
        by_cases hdig : 48 ≤ c ∧ c ≤ 57
        · rw [if_pos hdig]
          exact parse_i64_go_pos stop_char neg (buf.length + 1) buf 0 q hq
        · rw [if_neg hdig]; dsimp only []; omega
    by_cases h45 : c0 = 45
    · rw [if_pos h45]
      have := hgen true (pos + 1) (by omega)
      omega
    · rw [if_neg h45]
      have := hgen false pos hpos
      omega

theorem decode_int_pos : PosSpec decode_int := by
  intro buf pos hpos
  unfold decode_int next_char
  cases hp0 : peek_char buf pos with
  | error e => dsimp only []; omega
  | ok c0 =>
    dsimp only []
    have hposlen : pos < buf.length := peek_char_ok_lt hp0
    by_cases hi : c0 = 105
    · rw [if_neg (by simpa using hi)]
      have := parse_i64_pos 101 buf (pos + 1) (by omega)
      omega
    · rw [if_pos (by simpa using hi)]
      dsimp only []
      omega

theorem parse_usize_pos (stop_char : Byte) :
    ∀ (buf : List Byte) (pos : Nat), pos ≤ buf.length →
      pos ≤ (parse_usize buf stop_char pos).2 ∧ (parse_usize buf stop_char pos).2 ≤ buf.length := by
  intro buf pos hpos
  unfold parse_usize
  cases hp0 : peek_char buf pos with
  | error e => dsimp only []; omega
  | ok c =>
    dsimp only []
    by_cases hdig : 48 ≤ c ∧ c ≤ 57
    · rw [if_pos hdig]
      exact parse_usize_go_pos stop_char (buf.length + 1) buf 0 pos hpos
    · rw [if_neg hdig]; dsimp only []; omega

theorem decode_bytes_pos : PosSpec decode_bytes := by
  intro buf pos hpos
  unfold decode_bytes
  cases hp0 : peek_char buf pos with
  | error e => dsimp only []; omega
  | ok c =>
    dsimp only []
    by_cases hdig : 48 ≤ c ∧ c ≤ 57
    · rw [if_pos hdig]
      have hu := parse_usize_pos 58 buf pos hpos
      cases hq : parse_usize buf 58 pos with
      | mk res p1 =>
        rw [hq] at hu
        dsimp only [] at hu
        cases res with
        | error e => dsimp only []; omega
        | ok len =>
          dsimp only []
          by_cases hle : p1 + len ≤ buf.length
          · rw [if_pos hle]; dsimp only []; omega
          · rw [if_neg hle]; dsimp only []; omega
    · rw [if_neg hdig]; dsimp only []; omega

theorem decode_list_pos (v : Visitor α) (hv : PosSpec v.visit_list) :
    PosSpec (decode_list v) := by
  intro buf pos hpos
  unfold decode_list next_char
  cases hp0 : peek_char buf pos with
  | error e => dsimp only []; omega
  | ok c =>
    dsimp only []
    have hposlen : pos < buf.length := peek_char_ok_lt hp0
    by_cases hc : c = 108
    · rw [if_neg (by simpa using hc)]
      have hvv := hv buf (pos + 1) (by omega)
      cases hr : v.visit_list buf (pos + 1) with
      | mk res p2 =>
        rw [hr] at hvv
        dsimp only [] at hvv
        cases res with
        | error e => dsimp only []; omega
        | ok out =>
          dsimp only []
          cases hp2 : peek_char buf p2 with
          | error e => dsimp only []; omega
          | ok c2 =>
            dsimp only []
            have hp2len : p2 < buf.length := peek_char_ok_lt hp2
            by_cases h101 : c2 = 101
            · rw [if_pos h101]; dsimp only []; omega
            · rw [if_neg h101]; dsimp only []; omega
    · rw [if_pos (by simpa using hc)]
      dsimp only []
      omega

theorem decode_dict_pos (v : Visitor α) (hv : PosSpec v.visit_dict) :
    PosSpec (decode_dict v) := by
  intro buf pos hpos
  unfold decode_dict next_char
  cases hp0 : peek_char buf pos with
  | error e => dsimp only []; omega
  | ok c =>
    dsimp only []
    have hposlen : pos < buf.length := peek_char_ok_lt hp0
    by_cases hc : c = 100
    · rw [if_neg (by simpa using hc)]
      have hvv := hv buf (pos + 1) (by omega)
      cases hr : v.visit_dict buf (pos + 1) with
      | mk res p2 =>
        rw [hr] at hvv
        dsimp only [] at hvv
        cases res with
        | error e => dsimp only []; omega
        | ok out =>
          dsimp only []
          cases hp2 : peek_char buf p2 with
          | error e => dsimp only []; omega
          | ok c2 =>
            dsimp only []
            have hp2len : p2 < buf.length := peek_char_ok_lt hp2
            by_cases h101 : c2 = 101
            · rw [if_pos h101]; dsimp only []; omega
            · rw [if_neg h101]; dsimp only []; omega
    · rw [if_pos (by simpa using hc)]
      dsimp only []
      omega

theorem next_element_pos (dec : DecFn α) (hdec : PosSpec dec) :
    PosSpec (next_element dec) := by
  intro buf pos hpos
  unfold next_element
  cases hp0 : peek_char buf pos with
  | error e => dsimp only []; omega
  | ok c =>
    dsimp only []
    by_cases h101 : c = 101
    · rw [if_pos h101]; dsimp only []; omega
    · rw [if_neg h101]
      have hd := hdec buf pos hpos
      cases hr : dec buf pos with
      | mk res q =>
        rw [hr] at hd
        dsimp only [] at hd
        cases res with
        | error e => dsimp only []; omega
        | ok t => dsimp only []; omega

theorem next_entry_pos (dec : DecFn α) (hdec : PosSpec dec) :
    PosSpec (next_entry dec) := by
  intro buf pos hpos
  unfold next_entry
  cases hp0 : peek_char buf pos with
  | error e => dsimp only []; omega
  | ok c =>
    dsimp only []
    by_cases h101 : c = 101
    · rw [if_pos h101]; dsimp only []; omega
    · rw [if_neg h101]
      have hb := decode_bytes_pos buf pos hpos
      cases hr : decode_bytes buf pos with
      | mk res q =>
        rw [hr] at hb
        dsimp only [] at hb
        cases res with
        | error e => dsimp only []; omega
        | ok key =>
          dsimp only []
          have hd := hdec buf q (by omega)
          cases hr2 : dec buf q with
          | mk res2 q2 =>
            rw [hr2] at hd
            dsimp only [] at hd
            cases res2 with
            | error e => dsimp only []; omega
            | ok t => dsimp only []; omega

theorem peek_char_oob (buf : List Byte) (pos : Nat) (h : buf.length ≤ pos) :
    peek_char buf pos = .error .eof := by
  unfold peek_char
  rw [List.get?_eq_none.2 h]

/-- An encoding decodes at any position: wherever `enc` sits in the buffer,
`dec` started at its beginning succeeds with `v` and stops right after it. -/
def DecodesAt (dec : DecFn α) (enc : List Byte) (v : α) : Prop :=
  ∀ pre post : List Byte, dec (pre ++ enc ++ post) pre.length = (.ok v, pre.length + enc.length)

/-- Canonical decimal rendering of an i64 value (sign, then digits). -/
def intEnc (n : Int) : List Byte :=
  (if n < 0 then [45] else []) ++ (natDigits n.natAbs).map (fun d => d + 48)

/-- The buffer `i<N>e` for an i64 value `N`. -/
def intFullEnc (n : Int) : List Byte := 105 :: (intEnc n ++ [101])

theorem decode_int_encodes (n : Int) (h1 : I64_MIN < n) (h2 : n ≤ I64_MAX) :
    DecodesAt decode_int (intFullEnc n) n := by
  intro pre post
  obtain ⟨d0, rest, hds⟩ : ∃ d0 rest, natDigits n.natAbs = d0 :: rest := by
    cases h : natDigits n.natAbs with
    | nil => exact absurd h (natDigits_ne_nil _)
    | cons d0 rest => exact ⟨d0, rest, rfl⟩
  have hd0 : d0 < 10 := natDigits_lt10 n.natAbs d0 (hds ▸ List.mem_cons_self _ _)
  have hds10 : ∀ d ∈ natDigits n.natAbs, d < 10 := natDigits_lt10 n.natAbs
  have hfold : digitFoldN 0 (natDigits n.natAbs) = n.natAbs := digitFoldN_natDigits n.natAbs
  have hfoldI : digitFoldI (0 : Int) (natDigits n.natAbs) = (n.natAbs : Int) := by
    have hx := digitFoldI_natCast (natDigits n.natAbs) 0
    simpa [hfold] using hx
  have habs : (n.natAbs : Int) ≤ I64_MAX := by
    unfold I64_MIN at h1
    unfold I64_MAX at h2 ⊢
    omega
  have hstop : ¬ (48 ≤ (101 : Nat) ∧ (101 : Nat) ≤ 57) := by decide
  unfold decode_int next_char
  have hb0 : (pre ++ intFullEnc n ++ post).get? pre.length = some 105 := by
    have heq : pre ++ intFullEnc n ++ post
        = pre ++ 105 :: (intEnc n ++ [101] ++ post) := by
      simp [intFullEnc]
    rw [heq]
    exact get?_len_append _ _ _
  unfold peek_char
  rw [hb0]
  dsimp only []
  rw [if_neg (by simp)]
  unfold parse_i64
  by_cases hneg : n < 0
  · have henc : intEnc n = 45 :: (natDigits n.natAbs).map (fun d => d + 48) := by
      simp [intEnc, hneg]
    have hb1 : (pre ++ intFullEnc n ++ post).get? (pre.length + 1) = some 45 := by
      have heq : pre ++ intFullEnc n ++ post
          = (pre ++ [105]) ++ 45 :: ((natDigits n.natAbs).map (fun d => d + 48) ++ [101] ++ post) := by
        simp [intFullEnc, henc]
      rw [heq, show pre.length + 1 = (pre ++ [105]).length by simp]
      exact get?_len_append _ _ _
    unfold peek_char
    rw [hb1]
    dsimp only []
    rw [if_pos rfl]
    unfold parse_i64_digits peek_char
    have hb2 : (pre ++ intFullEnc n ++ post).get? (pre.length + 1 + 1) = some (d0 + 48) := by
      have heq : pre ++ intFullEnc n ++ post
          = (pre ++ [105, 45]) ++ (d0 + 48) :: (rest.map (fun d => d + 48) ++ [101] ++ post) := by
        simp [intFullEnc, henc, hds]
      rw [heq, show pre.length + 1 + 1 = (pre ++ [105, 45]).length by simp]
      exact get?_len_append _ _ _
    rw [hb2]
    dsimp only []
    have hd0dig : 48 ≤ d0 + 48 ∧ d0 + 48 ≤ 57 := by omega
    rw [if_pos hd0dig]
    have heq2 : pre ++ intFullEnc n ++ post
        = (pre ++ [105, 45]) ++ (natDigits n.natAbs).map (fun d => d + 48) ++ 101 :: post := by
      simp [intFullEnc, henc]
    rw [heq2]
    have hgo := parse_i64_go_ok 101 true hstop (natDigits n.natAbs) (pre ++ [105, 45]) post 0
      (((pre ++ [105, 45]) ++ (natDigits n.natAbs).map (fun d => d + 48) ++ 101 :: post).length + 1)
      hds10 (le_refl 0) (by rw [hfoldI]; exact habs)
      (by simp only [List.length_append, List.length_map, List.length_cons]; omega)
    have hpos2 : (pre ++ [105, 45]).length = pre.length + 1 + 1 := by simp
    rw [hpos2] at hgo
    rw [hgo, hfoldI]
    rw [if_pos rfl]
    have hval : (n.natAbs : Int) * (-1) = n := by
      have habs2 : (n.natAbs : Int) = -n := by omega
      rw [habs2]; ring
    rw [hval]
    have hlen3 : (intFullEnc n).length = (natDigits n.natAbs).length + 3 := by
      simp [intFullEnc, henc]
    rw [hlen3]
    congr 1
    omega
  · have henc : intEnc n = (natDigits n.natAbs).map (fun d => d + 48) := by
      simp [intEnc, hneg]
    have hb1 : (pre ++ intFullEnc n ++ post).get? (pre.length + 1) = some (d0 + 48) := by
      have heq : pre ++ intFullEnc n ++ post
          = (pre ++ [105]) ++ (d0 + 48) :: (rest.map (fun d => d + 48) ++ [101] ++ post) := by
        simp [intFullEnc, henc, hds]
      rw [heq, show pre.length + 1 = (pre ++ [105]).length by simp]
      exact get?_len_append _ _ _
    unfold peek_char
    rw [hb1]
    dsimp only []
    have hnot45 : ¬ (d0 + 48 = 45) := by omega
    rw [if_neg hnot45]
    unfold parse_i64_digits peek_char
    rw [hb1]
    dsimp only []
    have hd0dig : 48 ≤ d0 + 48 ∧ d0 + 48 ≤ 57 := by omega
    rw [if_pos hd0dig]
    have heq2 : pre ++ intFullEnc n ++ post
        = (pre ++ [105]) ++ (natDigits n.natAbs).map (fun d => d + 48) ++ 101 :: post := by
      simp [intFullEnc, henc]
    rw [heq2]
    have hgo := parse_i64_go_ok 101 false hstop (natDigits n.natAbs) (pre ++ [105]) post 0
      (((pre ++ [105]) ++ (natDigits n.natAbs).map (fun d => d + 48) ++ 101 :: post).length + 1)
      hds10 (le_refl 0) (by rw [hfoldI]; exact habs)
      (by simp only [List.length_append, List.length_map, List.length_cons]; omega)
    have hpos2 : (pre ++ [105]).length = pre.length + 1 := by simp
    rw [hpos2] at hgo
    rw [hgo, hfoldI]
    rw [if_neg (by simp)]
    have hval : ((n.natAbs : Int)) = n := by omega
    rw [hval]
    have hlen3 : (intFullEnc n).length = (natDigits n.natAbs).length + 2 := by
      simp [intFullEnc, henc]
    rw [hlen3]
    congr 1
    omega

theorem decode_bytes_spec (pre tail : List Byte) (ds : List Nat)
    (hne : ds ≠ []) (hds : ∀ d ∈ ds, d < 10) (hmax : digitFoldN 0 ds ≤ USIZE_MAX) :
    (digitFoldN 0 ds ≤ tail.length →
      decode_bytes (pre ++ ds.map (fun d => d + 48) ++ 58 :: tail) pre.length
        = (.ok (tail.take (digitFoldN 0 ds)), pre.length + ds.length + 1 + digitFoldN 0 ds))
    ∧ (tail.length < digitFoldN 0 ds →
      decode_bytes (pre ++ ds.map (fun d => d + 48) ++ 58 :: tail) pre.length
        = (.error .eof, pre.length + ds.length + 1)) := by
  obtain ⟨d0, rest, rfl⟩ : ∃ d0 rest, ds = d0 :: rest := by
    cases ds with
    | nil => exact absurd rfl hne
    | cons d0 rest => exact ⟨d0, rest, rfl⟩
  have hd0 : d0 < 10 := hds d0 (List.mem_cons_self _ _)
  have hd0dig : 48 ≤ d0 + 48 ∧ d0 + 48 ≤ 57 := by omega
  have hb0 : (pre ++ (d0 :: rest).map (fun d => d + 48) ++ 58 :: tail).get? pre.length
      = some (d0 + 48) := by
    have heq : pre ++ (d0 :: rest).map (fun d => d + 48) ++ 58 :: tail
        = pre ++ (d0 + 48) :: (rest.map (fun d => d + 48) ++ 58 :: tail) := by simp
    rw [heq]
    exact get?_len_append _ _ _
  have hlenB : (pre ++ (d0 :: rest).map (fun d => d + 48) ++ 58 :: tail).length
      = pre.length + (d0 :: rest).length + 1 + tail.length := by
    simp only [List.length_append, List.length_map, List.length_cons]
    omega
  have hus : parse_usize (pre ++ (d0 :: rest).map (fun d => d + 48) ++ 58 :: tail) 58 pre.length
      = (.ok (digitFoldN 0 (d0 :: rest)), pre.length + (d0 :: rest).length + 1) := by
    unfold parse_usize peek_char
    rw [hb0]
    dsimp only []
    rw [if_pos hd0dig]
    have hgo := parse_usize_go_ok 58 (by decide) (d0 :: rest) pre tail 0
      ((pre ++ (d0 :: rest).map (fun x => x + 48) ++ 58 :: tail).length + 1)
      hds hmax
      (by simp only [List.length_append, List.length_map, List.length_cons]; omega)
    exact hgo
  have hdrop : (pre ++ (d0 :: rest).map (fun d => d + 48) ++ 58 :: tail).drop
      (pre.length + (d0 :: rest).length + 1) = tail := by
    have heq : pre ++ (d0 :: rest).map (fun d => d + 48) ++ 58 :: tail
        = (pre ++ (d0 :: rest).map (fun d => d + 48) ++ [58]) ++ tail := by simp
    rw [heq, show pre.length + (d0 :: rest).length + 1
        = (pre ++ (d0 :: rest).map (fun d => d + 48) ++ [58]).length by
      simp only [List.length_append, List.length_map, List.length_cons, List.length_nil]]
    exact List.drop_left _ _
  constructor
  · intro hcase
    unfold decode_bytes peek_char
    rw [hb0]
    dsimp only []
    rw [if_pos hd0dig, hus]
    dsimp only []
    have hcond : pre.length + (d0 :: rest).length + 1 + digitFoldN 0 (d0 :: rest)
        ≤ (pre ++ (d0 :: rest).map (fun d => d + 48) ++ 58 :: tail).length := by
      rw [hlenB]; omega
    rw [if_pos hcond, hdrop]
  · intro hcase
    unfold decode_bytes peek_char
    rw [hb0]
    dsimp only []
    rw [if_pos hd0dig, hus]
    dsimp only []
    have hcond : ¬ (pre.length + (d0 :: rest).length + 1 + digitFoldN 0 (d0 :: rest)
        ≤ (pre ++ (d0 :: rest).map (fun d => d + 48) ++ 58 :: tail).length) := by
      rw [hlenB]; omega
    rw [if_neg hcond]

theorem array_go_err {α : Type} (dec : DecFn α) (n : Nat) :
    ∀ (ps : List (List Byte × α)) (pre post : List Byte) (r i : Nat),
      (∀ p ∈ ps, p.1 ≠ [] ∧ p.1.head? ≠ some 101 ∧ DecodesAt dec p.1 p.2) →
      ps.length < r →
      array_go dec n (pre ++ ((ps.map Prod.fst).flatten) ++ 101 :: post) r i pre.length
        = (.error (.length n (i + ps.length)),
           pre.length + ((ps.map Prod.fst).flatten).length) := by
  intro ps
  induction ps with
  | nil =>
    intro pre post r i _ hr
    obtain ⟨r0, rfl⟩ : ∃ r0, r = r0 + 1 := ⟨r - 1, by omega⟩
    simp only [array_go]
    unfold next_element peek_char
    have hb : (pre ++ ((List.map Prod.fst ([] : List (List Byte × α))).flatten) ++ 101 :: post).get? pre.length
        = some 101 := by
      have heq : pre ++ ((List.map Prod.fst ([] : List (List Byte × α))).flatten) ++ 101 :: post
          = pre ++ 101 :: post := by simp
      rw [heq]
      exact get?_len_append _ _ _
    rw [hb]
    dsimp only []
    rw [if_pos rfl]
    simp
  | cons p ps' ih =>
    intro pre post r i hps hr
    obtain ⟨e, v⟩ := p
    obtain ⟨r0, rfl⟩ : ∃ r0, r = r0 + 1 := ⟨r - 1, by omega⟩
    obtain ⟨hene, hehd, hedec⟩ := hps (e, v) (List.mem_cons_self _ _)
    obtain ⟨e0, etail, rfl⟩ : ∃ e0 etail, e = e0 :: etail := by
      cases e with
      | nil => exact absurd rfl hene
      | cons e0 etail => exact ⟨e0, etail, rfl⟩
    have he0 : e0 ≠ 101 := by
      intro hcon
      apply hehd
      simp [hcon]
    have hb : (pre ++ ((List.map Prod.fst ((e0 :: etail, v) :: ps')).flatten) ++ 101 :: post).get? pre.length
        = some e0 := by
      have heq : pre ++ ((List.map Prod.fst ((e0 :: etail, v) :: ps')).flatten) ++ 101 :: post
          = pre ++ e0 :: (etail ++ ((ps'.map Prod.fst).flatten) ++ 101 :: post) := by simp
      rw [heq]
      exact get?_len_append _ _ _
    simp only [array_go]
    unfold next_element peek_char
    rw [hb]
    dsimp only []
    rw [if_neg he0]
    have heq2 : pre ++ ((List.map Prod.fst ((e0 :: etail, v) :: ps')).flatten) ++ 101 :: post
        = pre ++ (e0 :: etail) ++ (((ps'.map Prod.fst).flatten) ++ 101 :: post) := by simp
    rw [heq2, hedec pre (((ps'.map Prod.fst).flatten) ++ 101 :: post)]
    dsimp only []
    have heq3 : pre ++ (e0 :: etail) ++ (((ps'.map Prod.fst).flatten) ++ 101 :: post)
        = (pre ++ (e0 :: etail)) ++ ((ps'.map Prod.fst).flatten) ++ 101 :: post := by simp
    rw [heq3]
    have hps' : ∀ p ∈ ps', (p.1 : List Byte) ≠ [] ∧ p.1.head? ≠ some 101 ∧ DecodesAt dec p.1 p.2 :=
      fun p hp => hps p (List.mem_cons_of_mem _ hp)
    have hr' : ps'.length < r0 := by
      simp only [List.length_cons] at hr; omega
    have h2 := ih (pre ++ (e0 :: etail)) post r0 (i + 1) hps' hr'
    rw [show (pre ++ (e0 :: etail)).length = pre.length + (e0 :: etail).length by simp] at h2
    rw [h2]
    dsimp only []
    have hi : i + 1 + ps'.length = i + ((e0 :: etail, v) :: ps').length := by
      simp only [List.length_cons]; omega
    have hl : pre.length + (e0 :: etail).length + ((ps'.map Prod.fst).flatten).length
        = pre.length + ((List.map Prod.fst ((e0 :: etail, v) :: ps')).flatten).length := by
      simp only [List.map_cons, List.flatten_cons, List.length_append, List.length_cons]
      omega
    rw [hi, hl]

theorem tuple_go_err {α : Type} (dec : DecFn α) :
    ∀ (ps : List (List Byte × α)) (pre post : List Byte) (r : Nat),
      (∀ p ∈ ps, p.1 ≠ [] ∧ p.1.head? ≠ some 101 ∧ DecodesAt dec p.1 p.2) →
      ps.length < r →
      tuple_go dec (pre ++ ((ps.map Prod.fst).flatten) ++ 101 :: post) r pre.length
        = (.error .eof, pre.length + ((ps.map Prod.fst).flatten).length) := by
  intro ps
  induction ps with
  | nil =>
    intro pre post r _ hr
    obtain ⟨r0, rfl⟩ : ∃ r0, r = r0 + 1 := ⟨r - 1, by omega⟩
    simp only [tuple_go]
    unfold next_element peek_char
    have hb : (pre ++ ((List.map Prod.fst ([] : List (List Byte × α))).flatten) ++ 101 :: post).get? pre.length
        = some 101 := by
      have heq : pre ++ ((List.map Prod.fst ([] : List (List Byte × α))).flatten) ++ 101 :: post
          = pre ++ 101 :: post := by simp
      rw [heq]
      exact get?_len_append _ _ _
    rw [hb]
    dsimp only []
    rw [if_pos rfl]
    simp
  | cons p ps' ih =>
    intro pre post r hps hr
    obtain ⟨e, v⟩ := p
    obtain ⟨r0, rfl⟩ : ∃ r0, r = r0 + 1 := ⟨r - 1, by omega⟩
    obtain ⟨hene, hehd, hedec⟩ := hps (e, v) (List.mem_cons_self _ _)
    obtain ⟨e0, etail, rfl⟩ : ∃ e0 etail, e = e0 :: etail := by
      cases e with
      | nil => exact absurd rfl hene
      | cons e0 etail => exact ⟨e0, etail, rfl⟩
    have he0 : e0 ≠ 101 := by
      intro hcon
      apply hehd
      simp [hcon]
    have hb : (pre ++ ((List.map Prod.fst ((e0 :: etail, v) :: ps')).flatten) ++ 101 :: post).get? pre.length
        = some e0 := by
      have heq : pre ++ ((List.map Prod.fst ((e0 :: etail, v) :: ps')).flatten) ++ 101 :: post
          = pre ++ e0 :: (etail ++ ((ps'.map Prod.fst).flatten) ++ 101 :: post) := by simp
      rw [heq]
      exact get?_len_append _ _ _
    simp only [tuple_go]
    unfold next_element peek_char
    rw [hb]
    dsimp only []
    rw [if_neg he0]
    have heq2 : pre ++ ((List.map Prod.fst ((e0 :: etail, v) :: ps')).flatten) ++ 101 :: post
        = pre ++ (e0 :: etail) ++ (((ps'.map Prod.fst).flatten) ++ 101 :: post) := by simp
    rw [heq2, hedec pre (((ps'.map Prod.fst).flatten) ++ 101 :: post)]
    dsimp only []
    have heq3 : pre ++ (e0 :: etail) ++ (((ps'.map Prod.fst).flatten) ++ 101 :: post)
        = (pre ++ (e0 :: etail)) ++ ((ps'.map Prod.fst).flatten) ++ 101 :: post := by simp
    rw [heq3]
    have hps' : ∀ p ∈ ps', (p.1 : List Byte) ≠ [] ∧ p.1.head? ≠ some 101 ∧ DecodesAt dec p.1 p.2 :=
      fun p hp => hps p (List.mem_cons_of_mem _ hp)
    have hr' : ps'.length < r0 := by
      simp only [List.length_cons] at hr; omega
    have h2 := ih (pre ++ (e0 :: etail)) post r0 hps' hr'
    rw [show (pre ++ (e0 :: etail)).length = pre.length + (e0 :: etail).length by simp] at h2
    rw [h2]
    dsimp only []
    have hl : pre.length + (e0 :: etail).length + ((ps'.map Prod.fst).flatten).length
        = pre.length + ((List.map Prod.fst ((e0 :: etail, v) :: ps')).flatten).length := by
      simp only [List.map_cons, List.flatten_cons, List.length_append, List.length_cons]
      omega
    rw [hl]

theorem parse_i64_overflow_at (stop_char : Byte) (pre post : List Byte) (ds : List Nat) (j : Nat)
    (hds : ∀ d ∈ ds, d < 10) (hj : j < ds.length)
    (hle : digitFoldI 0 (ds.take j) ≤ I64_MAX)
    (hgt : I64_MAX < digitFoldI 0 (ds.take (j + 1))) :
    parse_i64 (pre ++ ds.map (fun d => d + 48) ++ post) stop_char pre.length
      = (.error (.overflow (pre.length + j + 1)), pre.length + j + 1) := by
  obtain ⟨d0, rest, rfl⟩ : ∃ d0 rest, ds = d0 :: rest := by
    cases ds with
    | nil => simp at hj
    | cons d0 rest => exact ⟨d0, rest, rfl⟩
  have hd0 : d0 < 10 := hds d0 (List.mem_cons_self _ _)
  have hd0dig : 48 ≤ d0 + 48 ∧ d0 + 48 ≤ 57 := by omega
  have hb0 : (pre ++ (d0 :: rest).map (fun d => d + 48) ++ post).get? pre.length
      = some (d0 + 48) := by
    have heq : pre ++ (d0 :: rest).map (fun d => d + 48) ++ post
        = pre ++ (d0 + 48) :: (rest.map (fun d => d + 48) ++ post) := by simp
    rw [heq]
    exact get?_len_append _ _ _
  unfold parse_i64 peek_char
  rw [hb0]
  dsimp only []
  have hnot45 : ¬ (d0 + 48 = 45) := by omega
  rw [if_neg hnot45]
  unfold parse_i64_digits peek_char
  rw [hb0]
  dsimp only []
  rw [if_pos hd0dig]
  have hgo := parse_i64_go_overflow stop_char false j (d0 :: rest) pre post 0
    ((pre ++ (d0 :: rest).map (fun x => x + 48) ++ post).length + 1)
    hds (le_refl 0) hj hle hgt
    (by
      have hj2 := hj
      simp only [List.length_cons] at hj2
      simp only [List.length_append, List.length_map, List.length_cons]
      omega)
  exact hgo

theorem parse_usize_overflow_at (stop_char : Byte) (pre post : List Byte) (ds : List Nat) (j : Nat)
    (hds : ∀ d ∈ ds, d < 10) (hj : j < ds.length)
    (hle : digitFoldN 0 (ds.take j) ≤ USIZE_MAX)
    (hgt : USIZE_MAX < digitFoldN 0 (ds.take (j + 1))) :
    parse_usize (pre ++ ds.map (fun d => d + 48) ++ post) stop_char pre.length
      = (.error (.overflow (pre.length + j + 1)), pre.length + j + 1) := by
  obtain ⟨d0, rest, rfl⟩ : ∃ d0 rest, ds = d0 :: rest := by
    cases ds with
    | nil => simp at hj
    | cons d0 rest => exact ⟨d0, rest, rfl⟩
  have hd0 : d0 < 10 := hds d0 (List.mem_cons_self _ _)
  have hd0dig : 48 ≤ d0 + 48 ∧ d0 + 48 ≤ 57 := by omega
  have hb0 : (pre ++ (d0 :: rest).map (fun d => d + 48) ++ post).get? pre.length
      = some (d0 + 48) := by
    have heq : pre ++ (d0 :: rest).map (fun d => d + 48) ++ post
        = pre ++ (d0 + 48) :: (rest.map (fun d => d + 48) ++ post) := by simp
    rw [heq]
    exact get?_len_append _ _ _
  unfold parse_usize peek_char
  rw [hb0]
  dsimp only []
  rw [if_pos hd0dig]
  have hgo := parse_usize_go_overflow stop_char j (d0 :: rest) pre post 0
    ((pre ++ (d0 :: rest).map (fun x => x + 48) ++ post).length + 1)
    hds hj hle hgt
    (by
      have hj2 := hj
      simp only [List.length_cons] at hj2
      simp only [List.length_append, List.length_map, List.length_cons]
      omega)
  exact hgo

theorem decode_list_err_108 {α : Type} (v : Visitor α) (buf : List Byte) (pos : Nat)
    (e : Error) (q : Nat) (hb : buf.get? pos = some 108)
    (hv : v.visit_list buf (pos + 1) = (.error e, q)) :
    decode_list v buf pos = (.error e, q) := by
  unfold decode_list next_char peek_char
  rw [hb]
  dsimp only []
  rw [if_neg (by simp)]
  rw [hv]

/-- C4 (amended): on a tag mismatch, `decode_bytes` (which peeks) leaves the
cursor unchanged, while `decode_int`, `decode_list` and `decode_dict` (which
consume the tag byte via `next_char` before checking it) leave the cursor one
byte past the starting position; each error carries that final position. -/
theorem claim_C4_theorem {α : Type} (v : Visitor α) (buf : List Byte) (pos : Nat) (c : Byte)
    (hc : buf.get? pos = some c) :
    (¬ (48 ≤ c ∧ c ≤ 57) →
      decode_bytes buf pos = (.error (.parse "Expected byte string" pos), pos))
    ∧ (c ≠ 105 → decode_int buf pos = (.error (.parse "Expected integer" (pos + 1)), pos + 1))
    ∧ (c ≠ 108 → decode_list v buf pos = (.error (.parse "Expected List" (pos + 1)), pos + 1))
    ∧ (c ≠ 100 → decode_dict v buf pos = (.error (.parse "Expected Dict" (pos + 1)), pos + 1)) := by
  have hp : peek_char buf pos = .ok c := by
    unfold peek_char
    rw [hc]
  refine ⟨?_, ?_, ?_, ?_⟩
  · intro h
    unfold decode_bytes
    rw [hp]
    dsimp only []
    rw [if_neg h]
  · intro h
    unfold decode_int next_char
    rw [hp]
    dsimp only []
    rw [if_pos h]
  · intro h
    unfold decode_list next_char
    rw [hp]
    dsimp only []
    rw [if_pos h]
  · intro h
    unfold decode_dict next_char
    rw [hp]
    dsimp only []
    rw [if_pos h]

/-- C4 witness: concrete tag mismatches at position 0 of the buffer `l`. -/
theorem claim_C4_witness :
    decode_bytes [108] 0 = (.error (.parse "Expected byte string" 0), 0)
    ∧ decode_int [108] 0 = (.error (.parse "Expected integer" 1), 1)
    ∧ decode_dict ({} : Visitor Unit) [108] 0 = (.error (.parse "Expected Dict" 1), 1) := by
  have h := claim_C4_theorem ({} : Visitor Unit) [108] 0 108 rfl
  exact ⟨h.1 (by decide), h.2.1 (by decide), h.2.2.2 (by decide)⟩

/-- C4 counterexample: a failed `decode_int` on the byte-string input `4:spam`
ends with the cursor at 1, not at the starting position 0, refuting the claim
that all four operations leave the cursor unchanged on a tag mismatch. -/
theorem claim_C4_cex :
    decode_int [52, 58, 115, 112, 97, 109] 0 = (.error (.parse "Expected integer" 1), 1)
    ∧ (1 : Nat) ≠ 0 := ⟨by rfl, by decide⟩

/-- C1: evaluating the `map_impl!` adapter (which calls `decode_list` instead
of `decode_dict`) on the dictionary `d3:cow3:moo4:spam4:eggse` fails with
`Parse "Expected List"` at position 1; the second conjunct shows that routing
the same visitor through `decode_dict` — the evident intent — yields exactly
the map {cow ↦ moo, spam ↦ eggs}. -/
theorem claim_C1_theorem :
    decode_btreemap decode_bytes
      [100, 51, 58, 99, 111, 119, 51, 58, 109, 111, 111, 52, 58, 115, 112, 97, 109,
       52, 58, 101, 103, 103, 115, 101] 0
      = (.error (.parse "Expected List" 1), 1)
    ∧ decode_dict (map_visitor decode_bytes)
      [100, 51, 58, 99, 111, 119, 51, 58, 109, 111, 111, 52, 58, 115, 112, 97, 109,
       52, 58, 101, 103, 103, 115, 101] 0
      = (.ok [([99, 111, 119], [109, 111, 111]), ([115, 112, 97, 109], [101, 103, 103, 115])],
         24) := by
  constructor
  · rfl
  · rfl

/-- C5: on the 21-byte input `18446744073709551615:` the length parses to
usize::MAX, and the unchecked slice-bound addition `self.pos + len` in
src/parse.rs `decode_bytes` overflows usize — an abort (panic) under debug
overflow checking, marked `none` in the debug model; under release (wrapping)
semantics, modelled by the plain `decode_bytes`, the same input merely reports
end-of-input. -/
theorem claim_C5_theorem :
    decode_bytes_dbg
      [49, 56, 52, 52, 54, 55, 52, 52, 48, 55, 51, 55, 48, 57, 53, 53, 49, 54, 49, 53, 58] 0
      = none
    ∧ decode_bytes
      [49, 56, 52, 52, 54, 55, 52, 52, 48, 55, 51, 55, 48, 57, 53, 53, 49, 54, 49, 53, 58] 0
      = (.error .eof, 21) := by
  constructor
  · rfl
  · rfl

/-- C2 (amended): decoding `i<N>e` yields `N` for every i64 value except
i64::MIN itself, whose magnitude overflows the non-negative i64 accumulator
of `parse_i64`. -/
theorem claim_C2_theorem (n : Int) (h1 : I64_MIN < n) (h2 : n ≤ I64_MAX) :
    decode_int (intFullEnc n) 0 = (.ok n, (intFullEnc n).length) := by
  have h := decode_int_encodes n h1 h2 [] []
  simpa using h

/-- C2 witness: the encoding of 42 decodes to 42. -/
theorem claim_C2_witness :
    decode_int (intFullEnc 42) 0 = (.ok 42, (intFullEnc 42).length) :=
  claim_C2_theorem 42 (by decide) (by decide)

/-- C2 counterexample: `i-9223372036854775808e` (i64::MIN, inside the signed
64-bit range) does not decode to Ok; it fails with `Overflow` at position 21. -/
theorem claim_C2_cex :
    decode_int
      [105, 45, 57, 50, 50, 51, 51, 55, 50, 48, 51, 54, 56, 53, 52, 55, 55, 53, 56, 48, 56, 101] 0
      = (.error (.overflow 21), 21)
    ∧ (Except.error (Error.overflow 21) : Except Error Int)
      ≠ Except.ok (-9223372036854775808) :=
  ⟨by rfl, fun h => Except.noConfusion h⟩

/-- C3 (amended): decoding a well-formed list of `k < n` elements as a
fixed-size array of `n` elements fails with `Length { expected := n, actual :=
k }`, while decoding it as an `n`-tuple fails with `Eof` — the tuple adapter
does not raise the length-mismatch error. -/
theorem claim_C3_theorem {α : Type} (dec : DecFn α) (n : Nat) (ps : List (List Byte × α))
    (hps : ∀ p ∈ ps, p.1 ≠ [] ∧ p.1.head? ≠ some 101 ∧ DecodesAt dec p.1 p.2)
    (hn : ps.length < n) :
    decode_array dec n (108 :: (((ps.map Prod.fst).flatten) ++ [101])) 0
      = (.error (.length n ps.length), 1 + ((ps.map Prod.fst).flatten).length)
    ∧ decode_tuple dec n (108 :: (((ps.map Prod.fst).flatten) ++ [101])) 0
      = (.error .eof, 1 + ((ps.map Prod.fst).flatten).length) := by
  have harr := array_go_err dec n ps [108] [] n 0 hps hn
  have htup := tuple_go_err dec ps [108] [] n hps hn
  have heq : ([108] : List Byte) ++ ((ps.map Prod.fst).flatten) ++ 101 :: ([] : List Byte)
      = 108 :: (((ps.map Prod.fst).flatten) ++ [101]) := by simp
  rw [heq] at harr htup
  simp only [List.length_cons, List.length_nil, Nat.zero_add] at harr htup
  constructor
  · exact decode_list_err_108 _ _ 0 _ _ rfl harr
  · exact decode_list_err_108 _ _ 0 _ _ rfl htup

/-- C3 witness: the one-element list `li5ee` decoded as a 2-array yields
`Length { expected := 2, actual := 1 }`, and as a homogeneous 2-tuple yields
`Eof`. -/
theorem claim_C3_witness :
    decode_array decode_int 2 [108, 105, 53, 101, 101] 0
      = (.error (.length 2 1), 4)
    ∧ decode_tuple decode_int 2 [108, 105, 53, 101, 101] 0
      = (.error .eof, 4) := by
  have h := claim_C3_theorem decode_int 2 [([105, 53, 101], (5 : Int))]
    (by
      intro p hp
      simp only [List.mem_singleton] at hp
      subst hp
      refine ⟨by decide, by decide, ?_⟩
      have h5 := decode_int_encodes 5 (by decide) (by decide)
      have he : intFullEnc 5 = [105, 53, 101] := by decide
      rw [he] at h5
      exact h5)
    (by decide)
  exact h

/-- C3 counterexample: the tuple adapter applied to the empty list `le` fails
with `Eof`, not with the length-mismatch error the claim promises. -/
theorem claim_C3_cex :
    (decode_pair decode_int decode_int [108, 101] 0).1 = Except.error Error.eof
    ∧ (Except.error Error.eof : Except Error (Int × Int))
      ≠ Except.error (Error.length 2 0) := by
  refine ⟨by rfl, fun h => ?_⟩
  have h2 := Except.error.inj h
  cases h2

/-- C6: truncation of a valid encoding fails with end-of-input.  The first
three conjuncts establish the truncation specification for `decode_int`,
`decode_bytes` and (closure under the list adapter) `decode_vec`; the last
states the claim itself: if a buffer is exactly a valid encoding (decode
succeeds consuming the whole buffer), every proper prefix fails with `Eof`. -/
theorem claim_C6_theorem :
    TruncSpec decode_int ∧ TruncSpec decode_bytes ∧
    (∀ {α : Type} (dec : DecFn α), TruncSpec dec → TruncSpec (decode_vec dec)) ∧
    (∀ {α : Type} (dec : DecFn α) (buf : List Byte) (v : α),
      TruncSpec dec → dec buf 0 = (.ok v, buf.length) →
      ∀ k, k < buf.length → (dec (buf.take k) 0).1 = .error .eof) := by
  refine ⟨decode_int_trunc, decode_bytes_trunc, ?_, ?_⟩
  · intro α dec hdec
    exact decode_vec_trunc dec hdec
  · intro α dec buf v hdec h k hk
    exact (hdec buf 0 v buf.length h).2.2.2 k (Nat.zero_le k) hk

/-- C6 witness: the prefix `i4` of the valid encoding `i42e` fails with Eof. -/
theorem claim_C6_witness :
    (decode_int (List.take 2 [105, 52, 50, 101]) 0).1 = Except.error Error.eof :=
  claim_C6_theorem.2.2.2 decode_int [105, 52, 50, 101] 42 claim_C6_theorem.1
    (by decide) 2 (by decide)

/-- C7: decoding `<len>:<bytes>` yields exactly the length-`len` sub-range of
the input following the colon and advances the cursor past it; with fewer than
`len` bytes after the colon it fails with `Eof`, the cursor resting just past
the colon. -/
theorem claim_C7_theorem (pre tail : List Byte) (ds : List Nat)
    (hne : ds ≠ []) (hds : ∀ d ∈ ds, d < 10) (hmax : digitFoldN 0 ds ≤ USIZE_MAX) :
    (digitFoldN 0 ds ≤ tail.length →
      decode_bytes (pre ++ ds.map (fun d => d + 48) ++ 58 :: tail) pre.length
        = (.ok (tail.take (digitFoldN 0 ds)), pre.length + ds.length + 1 + digitFoldN 0 ds)
      ∧ (tail.take (digitFoldN 0 ds)).length = digitFoldN 0 ds)
    ∧ (tail.length < digitFoldN 0 ds →
      decode_bytes (pre ++ ds.map (fun d => d + 48) ++ 58 :: tail) pre.length
        = (.error .eof, pre.length + ds.length + 1)) := by
  obtain ⟨hok, herr⟩ := decode_bytes_spec pre tail ds hne hds hmax
  refine ⟨fun hc => ⟨hok hc, ?_⟩, herr⟩
  rw [List.length_take]
  omega

/-- C7 witness: `4:spam` decodes to the bytes `spam` ending at position 6, and
the truncated `4:sp` fails with Eof at position 2. -/
theorem claim_C7_witness :
    decode_bytes [52, 58, 115, 112, 97, 109] 0 = (.ok [115, 112, 97, 109], 6)
    ∧ decode_bytes [52, 58, 115, 112] 0 = (.error .eof, 2) := by
  have h1 := (claim_C7_theorem [] [115, 112, 97, 109] [4] (by decide) (by decide) (by decide)).1
    (by decide)
  have h2 := (claim_C7_theorem [] [115, 112] [4] (by decide) (by decide) (by decide)).2
    (by decide)
  exact ⟨h1.1, h2⟩

/-- C8 (amended): when digit accumulation first overflows at the digit with
index `j` of the run, both `parse_i64` and `parse_usize` fail with `Overflow`
whose position field is the offset just past that digit (its offset plus one),
which is where the cursor rests. -/
theorem claim_C8_theorem :
    (∀ (stop_char : Byte) (pre post : List Byte) (ds : List Nat) (j : Nat),
      (∀ d ∈ ds, d < 10) → j < ds.length →
      digitFoldI 0 (ds.take j) ≤ I64_MAX → I64_MAX < digitFoldI 0 (ds.take (j + 1)) →
      parse_i64 (pre ++ ds.map (fun d => d + 48) ++ post) stop_char pre.length
        = (.error (.overflow (pre.length + j + 1)), pre.length + j + 1))
    ∧ (∀ (stop_char : Byte) (pre post : List Byte) (ds : List Nat) (j : Nat),
      (∀ d ∈ ds, d < 10) → j < ds.length →
      digitFoldN 0 (ds.take j) ≤ USIZE_MAX → USIZE_MAX < digitFoldN 0 (ds.take (j + 1)) →
      parse_usize (pre ++ ds.map (fun d => d + 48) ++ post) stop_char pre.length
        = (.error (.overflow (pre.length + j + 1)), pre.length + j + 1)) :=
  ⟨fun s pre post ds j h1 h2 h3 h4 => parse_i64_overflow_at s pre post ds j h1 h2 h3 h4,
   fun s pre post ds j h1 h2 h3 h4 => parse_usize_overflow_at s pre post ds j h1 h2 h3 h4⟩

/-- C8 witness: parsing the digit run of 35184372088832000000 (first 19 digits
fit in i64, the 20th overflows) stops with Overflow at position 20 = offset of
the overflowing digit (19) plus one. -/
theorem claim_C8_witness :
    parse_i64
      [51, 53, 49, 56, 52, 51, 55, 50, 48, 56, 56, 56, 51, 50, 48, 48, 48, 48, 48, 48, 101]
      101 0
      = (.error (.overflow 20), 20) := by
  have h := claim_C8_theorem.1 101 [] [101]
    [3, 5, 1, 8, 4, 3, 7, 2, 0, 8, 8, 8, 3, 2, 0, 0, 0, 0, 0, 0] 19
    (by decide) (by decide) (by decide) (by decide)
  simpa using h

/-- C8 counterexample: on `i35184372088832000000e` the first overflowing digit
sits at byte offset 20, but the reported overflow position is 21 (the cursor
after consuming that digit), refuting the claim as stated. -/
theorem claim_C8_cex :
    decode_int
      [105, 51, 53, 49, 56, 52, 51, 55, 50, 48, 56, 56, 56, 51, 50, 48, 48, 48, 48, 48, 48, 101] 0
      = (.error (.overflow 21), 21)
    ∧ Error.overflow 21 ≠ Error.overflow 20 := ⟨by rfl, by decide⟩

/-- C9: the cursor invariant.  From any in-bounds position, each of the four
decoder operations and both accessors (for any visitor / element decoder that
itself respects the invariant) leaves the cursor monotonically non-decreasing
and never past the buffer length, and a read at or past the end yields Eof
rather than indexing out of range. -/
theorem claim_C9_theorem :
    PosSpec decode_int ∧ PosSpec decode_bytes ∧
    (∀ {α : Type} (v : Visitor α), PosSpec v.visit_list → PosSpec (decode_list v)) ∧
    (∀ {α : Type} (v : Visitor α), PosSpec v.visit_dict → PosSpec (decode_dict v)) ∧
    (∀ {α : Type} (dec : DecFn α), PosSpec dec → PosSpec (next_element dec)) ∧
    (∀ {α : Type} (dec : DecFn α), PosSpec dec → PosSpec (next_entry dec)) ∧
    (∀ (buf : List Byte) (pos : Nat), buf.length ≤ pos → peek_char buf pos = .error .eof) := by
  refine ⟨decode_int_pos, decode_bytes_pos, ?_, ?_, ?_, ?_, peek_char_oob⟩
  · intro α v hv
    exact decode_list_pos v hv
  · intro α v hv
    exact decode_dict_pos v hv
  · intro α dec hdec
    exact next_element_pos dec hdec
  · intro α dec hdec
    exact next_entry_pos dec hdec

/-- C9 witness: a concrete instance of the invariant for `decode_int` on the
one-byte buffer `i`. -/
theorem claim_C9_witness :
    0 ≤ (decode_int [105] 0).2 ∧ (decode_int [105] 0).2 ≤ ([105] : List Byte).length :=
  claim_C9_theorem.1 [105] 0 (by decide)

/-- C10: the top-level parse is deterministic — its result is a function of the
buffer contents alone (the embedding threads no other state). -/
theorem claim_C10_theorem {α : Type} (dec : DecFn α) (b1 b2 : List Byte) (h : b1 = b2) :
    parse dec b1 = parse dec b2 := by
  rw [h]

/-- C10 witness: two invocations of parse on equal buffers agree. -/
theorem claim_C10_witness :
    parse decode_int [105, 52, 50, 101] = parse decode_int [105, 52, 50, 101] :=
  claim_C10_theorem decode_int [105, 52, 50, 101] [105, 52, 50, 101] rfl
